import Mathlib

/-!
A shallow embedding of `smallsh.c`, the small shell, and the properties proved
of it.

C strings are lists of characters (the bytes before the terminating NUL).
Loops are functions with an explicit iteration budget; a result of `none`
stands for undefined behaviour (a read or write outside an object, a NULL
dereference) or for an exhausted budget, and the theorems show that neither
happens on the inputs they cover.
-/

namespace Smallsh

/-- A C string: the characters that precede the terminating NUL. -/
abbrev CString := List Char

/-- The character `'$'`. -/
def dollar : Char := Char.ofNat 36

/-- The delimiter `" "` handed to `strtok_r`. -/
def space : Char := Char.ofNat 32

/-- `size_t` subtraction: `a - b` in 64-bit unsigned arithmetic. -/
def sizeSub (a b : Nat) : Nat := (a % 2 ^ 64 + 2 ^ 64 - b % 2 ^ 64) % 2 ^ 64

/-- `s[i]`: a character of the string, the NUL terminator at `i = strlen s`,
and no value for an index past the terminator. -/
def charAt (s : CString) (i : Nat) : Option Char :=
  if i < s.length then s.get? i else if i = s.length then some (Char.ofNat 0) else none

/-- `strcat(dst, src)` into a zero-filled block of `cap` bytes: the bytes of
the result and its terminator must fit. -/
def strcat (cap : Nat) (dst src : CString) : Option CString :=
  if dst.length + src.length + 1 ≤ cap then some (dst ++ src) else none

/-- `sprintf(letter, "%c", c)`: the one-character string holding `c`, the empty
string when `c` is NUL. -/
def letterOf (c : Char) : CString := if c = Char.ofNat 0 then [] else [c]

/-- `strncmp(letter, "$", 1) == 0`: the first bytes agree. -/
def isDollar (letter : CString) : Bool := letter.head? == some dollar

/-- First loop of `expandVariables` (lines 289-301): counts the `$$` pairs,
`index` starting at 1 and looking at `arguments[index-1]`, `arguments[index]`. -/
def countDoubles (arguments : CString) : Nat → Nat → Nat → Option Nat
  | 0, _, _ => none
  | fuel + 1, index, doubleVarCount =>
    if index < arguments.length then
      match charAt arguments (index - 1), charAt arguments index with
      | some c1, some c2 =>
        if isDollar (letterOf c2) && isDollar (letterOf c1) then
          countDoubles arguments fuel (index + 2) (doubleVarCount + 1)
        else
          countDoubles arguments fuel (index + 1) doubleVarCount
      | _, _ => none
    else some doubleVarCount

/-- Second loop of `expandVariables` (lines 311-328): copies characters into
`argCopy`, a block of `cap` bytes, writing `pidChars` for each `$$` pair. The
bound `strlen(arguments)-1` is computed in `size_t`. Returns the final `index`
and the copy. -/
def copyExpanded (pidChars arguments : CString) (cap : Nat) :
    Nat → Nat → CString → Option (Nat × CString)
  | 0, _, _ => none
  | fuel + 1, index, argCopy =>
    if index < sizeSub arguments.length 1 then
      match charAt arguments index, charAt arguments (index + 1) with
      | some c1, some c2 =>
        if isDollar (letterOf c2) && isDollar (letterOf c1) then
          match strcat cap argCopy pidChars with
          | some argCopy1 => copyExpanded pidChars arguments cap fuel (index + 2) argCopy1
          | none => none
        else
          match strcat cap argCopy (letterOf c1) with
          | some argCopy1 => copyExpanded pidChars arguments cap fuel (index + 1) argCopy1
          | none => none
      | _, _ => none
    else some (index, argCopy)

/-- `expandVariables` (lines 278-339) with `pidChars` the text that
`sprintf(pidChars, "%d", getpid())` produced. The `int` counters are natural
numbers: `fgets` bounds the line by 2048 characters, far from `INT_MAX`. -/
def expandVariables (pidChars arguments : CString) : Option CString := do
  let doubleVarCount ← countDoubles arguments (arguments.length + 1) 1 0
  let cap := arguments.length + pidChars.length * doubleVarCount + 1
  let (index, argCopy) ← copyExpanded pidChars arguments cap (arguments.length + 1) 0 []
  if sizeSub arguments.length index = 1 then
    let lastLetter ← charAt arguments index
    strcat cap argCopy (letterOf lastLetter)
  else
    pure argCopy

/-- The scan of the specification: at each position, two `$` in a row give the
process-id text and move two characters on, anything else is copied and moves
one character on. -/
def greedyScan (P : CString) : CString → CString
  | [] => []
  | [c] => [c]
  | c :: d :: rest =>
    if c = dollar ∧ d = dollar then P ++ greedyScan P rest
    else c :: greedyScan P (d :: rest)

/-- Number of `$$` pairs that the greedy scan expands. -/
def greedyPairs : CString → Nat
  | [] => 0
  | [_] => 0
  | c :: d :: rest =>
    if c = dollar ∧ d = dollar then greedyPairs rest + 1
    else greedyPairs (d :: rest)

/-- Well-formed C string: no NUL among its characters and a length that a
`size_t` holds. -/
def IsCString (s : CString) : Prop := Char.ofNat 0 ∉ s ∧ s.length < 2 ^ 64

instance (s : CString) : Decidable (IsCString s) :=
  inferInstanceAs (Decidable (Char.ofNat 0 ∉ s ∧ s.length < 2 ^ 64))

/-- `sprintf(pidChars, "%d", getpid())` for a process id, which is positive: its
decimal digits. -/
def pidText (pid : Nat) : CString := Nat.toDigits 10 pid

/-! ### Tokens, `parseArgs`, `checkBackgroundCommand` -/

/-- `strtok_r(s, " ", &saveptr)` on the text `s` that the scan starts from
(the string itself on the first call, the save pointer on a call with NULL):
leading spaces are skipped; at the end of the text the result is NULL and the
save pointer stays at the end; otherwise the token runs up to the next space,
which is overwritten by NUL, and the save pointer is set after it. Returns the
token (`none` for NULL) and the text at the new save pointer. -/
def strtok_r (s : CString) : Option CString × CString :=
  match s.dropWhile (fun c => c == space) with
  | [] => (none, [])
  | c :: rest =>
    (some (c :: rest.takeWhile (fun d => d != space)),
      (rest.dropWhile (fun d => d != space)).drop 1)

/-- A cell of the pointer array `args`: not written since `malloc`, pointing to
a copy of a token, or NULL. -/
inductive Slot
  | uninit
  | str (s : CString)
  | null
  deriving DecidableEq, Repr

/-- `args[i] = v` in the array `args`; no result for an index outside it. -/
def writeSlot (args : List Slot) (i : Nat) (v : Slot) : Option (List Slot) :=
  if i < args.length then some (args.set i v) else none

/-- The `while (token != NULL)` loop of `parseArgs` (lines 371-381). -/
def parseLoop : Nat → Option CString → CString → List Slot → Nat → Option (List Slot × Nat)
  | 0, _, _, _, _ => none
  | _ + 1, none, _, args, argIndex => some (args, argIndex)
  | fuel + 1, some token, saveArgPtr, args, argIndex =>
    if token = "<".toList ∨ token = ">".toList then
      parseLoop fuel (strtok_r (strtok_r saveArgPtr).2).1 (strtok_r (strtok_r saveArgPtr).2).2
        args argIndex
    else if token ≠ "&".toList then
      (writeSlot args argIndex (Slot.str token)).bind fun args1 =>
        parseLoop fuel (strtok_r saveArgPtr).1 (strtok_r saveArgPtr).2 args1 (argIndex + 1)
    else
      parseLoop fuel (strtok_r saveArgPtr).1 (strtok_r saveArgPtr).2 args argIndex

/-- `parseArgs` (lines 355-387): the 514 cells of `args` after the call. The
terminator is written by `args[argIndex+1] = NULL`. -/
def parseArgs (expandedArgs : CString) : Option (List Slot) :=
  (parseLoop (expandedArgs.length + 1) (strtok_r expandedArgs).1 (strtok_r expandedArgs).2
      (List.replicate 514 Slot.uninit) 0).bind fun r =>
    writeSlot r.1 (r.2 + 1) Slot.null

/-- The `while (token != NULL)` loop of `checkBackgroundCommand` (lines 166-174). -/
def checkBackgroundLoop : Nat → Option CString → CString → Int → Option Int
  | 0, _, _, _ => none
  | _ + 1, none, _, backgroundCommand => some backgroundCommand
  | fuel + 1, some token, bgPtr, _ =>
    checkBackgroundLoop fuel (strtok_r bgPtr).1 (strtok_r bgPtr).2
      (if token = "&".toList then 1 else 0)

/-- `checkBackgroundCommand` (lines 156-177). -/
def checkBackgroundCommand (arguments : CString) : Option Int :=
  checkBackgroundLoop (arguments.length + 1) (strtok_r arguments).1 (strtok_r arguments).2 0

/-- The space-separated tokens of a line: the non-empty pieces between spaces,
in order. -/
def tokens (line : CString) : List CString :=
  (line.splitOn space).filter fun t => !t.isEmpty

/-- The arguments that the specification keeps: every token in order, leaving
out `<` and `>` together with the token that follows, and leaving out `&`. -/
def keptArgs : List CString → List CString
  | [] => []
  | [t] => if t = "<".toList ∨ t = ">".toList ∨ t = "&".toList then [] else [t]
  | t :: u :: rest =>
    if t = "<".toList ∨ t = ">".toList then keptArgs rest
    else if t = "&".toList then keptArgs (u :: rest)
    else t :: keptArgs (u :: rest)

/-- The tokens that a loop over `strtok_r` still has to see: the current token
and those of the text at the save pointer. -/
def pending (token : Option CString) (saveptr : CString) : List CString :=
  match token with
  | none => []
  | some t => t :: tokens saveptr

/-! ### Wait status -/

/-- Modelled from the spec: the macro `WTERMSIG` of <sys/wait.h>, which is not
under src/. It gives the "terminating-signal number" of a wait status; on Linux
it is `status & 0x7f`. -/
def WTERMSIG (status : Int) : Int := status % 128

/-- Modelled from the spec: the macro `WEXITSTATUS` of <sys/wait.h>, which is
not under src/. It gives the "normal-exit code" of a wait status; on Linux it
is `(status & 0xff00) >> 8`. -/
def WEXITSTATUS (status : Int) : Int := (status % 65536) / 256

/-- Modelled from the spec: the macro `WIFEXITED` of <sys/wait.h>, which is not
under src/. It tells whether the process "terminated normally"; on Linux it is
`WTERMSIG(status) == 0`. -/
def WIFEXITED (status : Int) : Bool := WTERMSIG status == 0

/-- Modelled from the spec: the macro `WIFSIGNALED` of <sys/wait.h>, which is
not under src/. It tells whether the process was "terminated by a signal"; on
Linux it is `((signed char) ((status & 0x7f) + 1) >> 1) > 0`. -/
def WIFSIGNALED (status : Int) : Bool :=
  let v := status % 128 + 1
  let signedChar := if 128 ≤ v then v - 256 else v
  decide (0 < signedChar / 2)

/-- Modelled from the spec: the wait status that the kernel reports for a
child that "exited normally" with `code` (the low 8 bits count), `code << 8` on
Linux. -/
def exitedStatus (code : Int) : Int := (code % 256) * 256

/-- Modelled from the spec: the wait status that the kernel reports for a
child "terminated by a signal" `sig`, with or without a core dump: `sig`, plus
`0x80` for the core dump, on Linux. -/
def signaledStatus (sig : Int) (core : Bool) : Int := sig + (if core then 128 else 0)

/-- `printf("%d", i)`. -/
def intText (i : Int) : CString :=
  if i < 0 then (Char.ofNat 45) :: Nat.toDigits 10 (-i).toNat else Nat.toDigits 10 i.toNat

/-! ### The list of background processes -/

/-- `struct backgroundProcess`; pointers are addresses, `none` is NULL. -/
structure backgroundProcess where
  processID : Int
  next : Option Nat
  prev : Option Nat
  deriving DecidableEq, Repr

/-- The allocated `struct backgroundProcess` objects, by address. -/
abbrev Heap := Nat → Option backgroundProcess

/-- Store (or, with `none`, free) the object at an address. -/
def Heap.write (h : Heap) (a : Nat) (v : Option backgroundProcess) : Heap :=
  fun x => if x = a then v else h x

/-- What the shell does to the outside, in order. -/
inductive Event
  | stdout (text : CString)
  | poll (pid : Int)
  | kill (pid : Int)
  | fork (result : Int)
  | wait (pid : Int)
  | chdir (path : Option CString)
  deriving DecidableEq, Repr

/-- Result of `waitpid(pid, &status, WNOHANG)`: the return value and the value
of `status` after the call. -/
structure WaitResult where
  waitVal : Int
  status : Int
  deriving DecidableEq, Repr

/-- `removeBackgroundProcess` (lines 70-82). No result when a pointer that is
dereferenced is NULL or dangling. -/
def removeBackgroundProcess (h : Heap) (focusProcess : Nat) : Option Heap :=
  (h focusProcess).bind fun focus =>
  focus.prev.bind fun previousProcess =>
  (h previousProcess).bind fun prevNode =>
  match focus.next with
  | none =>
    some ((h.write previousProcess (some { prevNode with next := none })).write focusProcess none)
  | some restOfList =>
    let h1 := h.write previousProcess (some { prevNode with next := some restOfList })
    (h1 restOfList).bind fun restNode =>
    some ((h1.write restOfList
      (some { restNode with prev := some previousProcess })).write focusProcess none)

/-- The three statements that follow a completion notice (lines 109-111 and
115-117): `focusProcess = focusProcess->prev;
removeBackgroundProcess(focusProcess->next); focusProcess = focusProcess->next;`.
Returns the heap and the new `focusProcess`. -/
def unlinkFocus (h : Heap) (focus : backgroundProcess) : Option (Heap × Option Nat) :=
  focus.prev.bind fun p =>
  (h p).bind fun pNode =>
  pNode.next.bind fun target =>
  (removeBackgroundProcess h target).bind fun h1 =>
  (h1 p).bind fun pNode1 =>
  some (h1, pNode1.next)

/-- Text of `printf("\nbackground pid %d is done: exit value %d\n", ...)`. -/
def doneExitText (processID status : Int) : CString :=
  "\nbackground pid ".toList ++ intText processID ++ " is done: exit value ".toList
    ++ intText status ++ "\n".toList

/-- Text of `printf("\nbackground pid %d is done: terminated by signal %d\n", ...)`. -/
def doneSignalText (processID status : Int) : CString :=
  "\nbackground pid ".toList ++ intText processID ++ " is done: terminated by signal ".toList
    ++ intText status ++ "\n".toList

/-- The `while (focusProcess != NULL)` loop of `cleanupBackgroundProcesses`
(lines 99-120). `waitpid calls pid` is what the `calls`-th non-blocking
`waitpid` of the run answers for `pid`. Both completion notices print the
variable `status`. Returns the heap, the number of polls made and the events. -/
def cleanupLoop (waitpid : Nat → Int → WaitResult) :
    Nat → Heap → Option Nat → Nat → List Event → Option (Heap × Nat × List Event)
  | 0, _, _, _, _ => none
  | _ + 1, h, none, calls, out => some (h, calls, out)
  | fuel + 1, h, some focusProcess, calls, out =>
    (h focusProcess).bind fun focus =>
    let r := waitpid calls focus.processID
    let out1 := out ++ [Event.poll focus.processID]
    if r.waitVal = 0 then
      cleanupLoop waitpid fuel h focus.next (calls + 1) out1
    else if WIFEXITED r.status then
      (unlinkFocus h focus).bind fun hf =>
        cleanupLoop waitpid fuel hf.1 hf.2 (calls + 1)
          (out1 ++ [Event.stdout (doneExitText focus.processID r.status)])
    else if WIFSIGNALED r.status then
      (unlinkFocus h focus).bind fun hf =>
        cleanupLoop waitpid fuel hf.1 hf.2 (calls + 1)
          (out1 ++ [Event.stdout (doneSignalText focus.processID r.status)])
    else
      cleanupLoop waitpid fuel h (some focusProcess) (calls + 1) out1

/-- `cleanupBackgroundProcesses` (lines 96-121), with an iteration budget. -/
def cleanupBackgroundProcesses (waitpid : Nat → Int → WaitResult) (fuel : Nat) (h : Heap)
    (listHead : Nat) (calls : Nat) (out : List Event) : Option (Heap × Nat × List Event) :=
  (h listHead).bind fun head => cleanupLoop waitpid fuel h head.next calls out

/-- The `while (target != NULL)` loop of `killRunningProcesses` (lines 137-140). -/
def killLoop : Nat → Heap → Option Nat → List Event → Option (List Event)
  | 0, _, _, _ => none
  | _ + 1, _, none, out => some out
  | fuel + 1, h, some target, out =>
    (h target).bind fun node => killLoop fuel h node.next (out ++ [Event.kill node.processID])

/-- `killRunningProcesses` (lines 133-142): a reap pass, then SIGTERM to every
process still in the list. No entry is unlinked by the second loop. -/
def killRunningProcesses (waitpid : Nat → Int → WaitResult) (fuel : Nat) (h : Heap)
    (listHead : Nat) (calls : Nat) (out : List Event) : Option (Heap × Nat × List Event) :=
  (cleanupBackgroundProcesses waitpid fuel h listHead calls out).bind fun r =>
  (r.1 listHead).bind fun head =>
  (killLoop fuel r.1 head.next r.2.2).bind fun out1 =>
  some (r.1, r.2.1, out1)

/-- The walk `while (endOfList->next != NULL)` of `createBackgroundProcess`
(lines 437-440). -/
def endOfList : Nat → Heap → Nat → Option Nat
  | 0, _, _ => none
  | fuel + 1, h, cur =>
    (h cur).bind fun node =>
    match node.next with
    | none => some cur
    | some nxt => endOfList fuel h nxt

/-- The parent branch of `createBackgroundProcess` (lines 433-443) for the
child `newChildPid`, with `newProcess` the block that `malloc` returned. -/
def appendBackgroundProcess (fuel : Nat) (h : Heap) (listHead newProcess : Nat)
    (newChildPid : Int) : Option Heap :=
  (endOfList fuel h listHead).bind fun last =>
  (h last).bind fun lastNode =>
  some ((h.write newProcess (some ⟨newChildPid, none, some last⟩)).write last
    (some { lastNode with next := some newProcess }))

/-! ### The dispatch loop of `main` -/

/-- The process-wide state of the shell: the global `foregroundOnly`, the
locals `lastStatus` and `listHead` of `main`, the heap that holds the list, the
number of non-blocking `waitpid` calls made so far, and the events so far. -/
structure Shell where
  foregroundOnly : Int
  lastStatus : Int
  heap : Heap
  listHead : Nat
  calls : Nat
  out : List Event

/-- What the operating system answers during one iteration of the loop. -/
structure Env where
  /-- `getpid()` -/
  pid : Nat
  /-- `getenv("HOME")` -/
  home : Option CString
  /-- the current directory that `getcwd` reports -/
  cwd : CString
  /-- `fork()` -/
  forkResult : Int
  /-- the status that the blocking `waitpid` stores -/
  childStatus : Int
  /-- the block that `malloc` returns in `createBackgroundProcess` -/
  newProcess : Nat
  /-- the answers of `waitpid(pid, &status, WNOHANG)`, by call number -/
  waitpid : Nat → Int → WaitResult

/-- Undefined behaviour met by an iteration. -/
inductive Fault
  /-- `expandVariables` left its buffers -/
  | expand
  /-- `strncmp(inputToken, "#", 1)` with `inputToken == NULL` -/
  | nullInputToken
  /-- `strncmp(path, inputArg, ...)` with `getenv("HOME") == NULL` -/
  | nullHome
  /-- `directory[250]` does not hold the path -/
  | directory
  /-- a list operation met a NULL or dangling pointer, or the budget ran out -/
  | list
  deriving DecidableEq, Repr

/-- How an iteration ends. -/
inductive Control
  /-- the loop goes on to the next prompt -/
  | prompt
  /-- `break`: `main` returns `EXIT_SUCCESS` -/
  | stop
  /-- `exit(1)` after `fork` failed -/
  | exitFailure
  /-- `fork` returned 0: this process is the child, which goes on to
  `redirectIO(expandedArgs, foreground)` -/
  | child (foreground : Int) (expandedArgs : CString)
  deriving DecidableEq, Repr

/-- The two ways of launching a command. -/
inductive Path
  | background
  | foreground
  deriving DecidableEq, Repr

/-- The test `foregroundOnly == 0 && backgroundCommand` (line 567). -/
def launchPath (foregroundOnly backgroundCommand : Int) : Path :=
  if foregroundOnly = 0 ∧ backgroundCommand ≠ 0 then Path.background else Path.foreground

/-- Append events to the record. -/
def Shell.emit (sh : Shell) (es : List Event) : Shell := { sh with out := sh.out ++ es }

/-- The reap pass that ends an iteration (line 616). -/
def reap (env : Env) (fuel : Nat) (sh : Shell) : Except Fault (Control × Shell) :=
  match cleanupBackgroundProcesses env.waitpid fuel sh.heap sh.listHead sh.calls sh.out with
  | none => Except.error Fault.list
  | some r => Except.ok (Control.prompt, { sh with heap := r.1, calls := r.2.1, out := r.2.2 })

/-- `createBackgroundProcess` (lines 404-446) as the shell sees it. -/
def createBackgroundProcess (env : Env) (fuel : Nat) (sh : Shell) (expandedArgs : CString) :
    Except Fault (Control × Shell) :=
  let sh1 := sh.emit [Event.fork env.forkResult]
  if env.forkResult = -1 then Except.ok (Control.exitFailure, sh1)
  else if env.forkResult = 0 then Except.ok (Control.child 0 expandedArgs, sh1)
  else
    let sh2 := sh1.emit
      [Event.stdout ("\nbackground pid is ".toList ++ intText env.forkResult ++ "\n".toList)]
    match appendBackgroundProcess fuel sh2.heap sh2.listHead env.newProcess env.forkResult with
    | none => Except.error Fault.list
    | some h1 => Except.ok (Control.prompt, { sh2 with heap := h1 })

/-- The foreground launch (lines 571-610) as the shell sees it: `fork`, then a
blocking `waitpid` whose status becomes `lastStatus`. -/
def foregroundProcess (env : Env) (sh : Shell) (expandedArgs : CString) :
    Except Fault (Control × Shell) :=
  let sh1 := sh.emit [Event.fork env.forkResult]
  if env.forkResult = -1 then Except.ok (Control.exitFailure, sh1)
  else if env.forkResult = 0 then Except.ok (Control.child 1 expandedArgs, sh1)
  else
    Except.ok (Control.prompt,
      { sh1.emit [Event.wait env.forkResult] with lastStatus := env.childStatus })

/-- The branch for commands that are not built in (lines 561-612). -/
def launch (env : Env) (fuel : Nat) (sh : Shell) (expandedArgs : CString) :
    Except Fault (Control × Shell) :=
  match checkBackgroundCommand expandedArgs with
  | none => Except.error Fault.list
  | some backgroundCommand =>
    match launchPath sh.foregroundOnly backgroundCommand with
    | Path.background => createBackgroundProcess env fuel sh expandedArgs
    | Path.foreground => foregroundProcess env sh expandedArgs

/-- The `exit` branch (lines 518-522). -/
def exitCommand (env : Env) (fuel : Nat) (sh : Shell) : Except Fault (Control × Shell) :=
  match killRunningProcesses env.waitpid fuel sh.heap sh.listHead sh.calls sh.out with
  | none => Except.error Fault.list
  | some r =>
    match cleanupBackgroundProcesses env.waitpid fuel r.1 sh.listHead r.2.1 r.2.2 with
    | none => Except.error Fault.list
    | some r1 =>
      Except.ok (Control.stop, { sh with heap := r1.1, calls := r1.2.1, out := r1.2.2 })

/-- The `cd` branch (lines 523-548). `sizeof(path) - 1` is 7 for the pointer
`path`; `getcwd(directory, 249)` needs the path and its terminator to fit, and
the two `strncat` calls need the result to fit the 250 bytes. -/
def cdCommand (env : Env) (sh : Shell) (saveptr : CString) : Except Fault Shell :=
  match (strtok_r saveptr).1 with
  | none => Except.ok (sh.emit [Event.chdir env.home])
  | some inputArg =>
    match env.home with
    | none => Except.error Fault.nullHome
    | some path =>
      if path.take 7 = inputArg.take 7 then Except.ok (sh.emit [Event.chdir (some inputArg)])
      else if env.cwd.length + 1 ≤ 249 ∧ env.cwd.length + 1 + inputArg.length + 1 ≤ 250 then
        Except.ok (sh.emit [Event.chdir (some (env.cwd ++ "/".toList ++ inputArg))])
      else Except.error Fault.directory

/-- The `status` branch (lines 549-560). -/
def statusCommand (sh : Shell) : Shell :=
  if WIFEXITED sh.lastStatus then
    sh.emit [Event.stdout ("exit value ".toList ++ intText (WEXITSTATUS sh.lastStatus))]
  else
    sh.emit [Event.stdout ("terminated by signal ".toList ++ intText (WTERMSIG sh.lastStatus))]

/-- After a launch the iteration ends with the reap pass, unless the process
left the loop. -/
def thenReap (env : Env) (fuel : Nat) :
    Except Fault (Control × Shell) → Except Fault (Control × Shell)
  | Except.error f => Except.error f
  | Except.ok (Control.prompt, sh1) => reap env fuel sh1
  | Except.ok r => Except.ok r

/-- Lines 516-613: what `main` does with the expanded line. -/
def dispatch (env : Env) (fuel : Nat) (sh : Shell) (expandedArgs : CString) :
    Except Fault (Control × Shell) :=
  match (strtok_r expandedArgs).1 with
  | none => Except.error Fault.nullInputToken
  | some inputToken =>
    if inputToken.head? ≠ some (Char.ofNat 35) then
      if inputToken = "exit".toList then exitCommand env fuel sh
      else if inputToken = "cd".toList then
        match cdCommand env sh (strtok_r expandedArgs).2 with
        | Except.error f => Except.error f
        | Except.ok sh1 => reap env fuel sh1
      else if inputToken = "status".toList then reap env fuel (statusCommand sh)
      else thenReap env fuel (launch env fuel sh expandedArgs)
    else reap env fuel sh

/-- One iteration of the `while (running == 1)` loop (lines 497-617), with
`userInput` the content of the buffer after `fgets`. -/
def iteration (env : Env) (fuel : Nat) (sh : Shell) (userInput : CString) :
    Except Fault (Control × Shell) :=
  let sh0 := sh.emit [Event.stdout ": ".toList]
  if 1 < userInput.length then
    match expandVariables (pidText env.pid) userInput.dropLast with
    | none => Except.error Fault.expand
    | some expandedArgs => dispatch env fuel sh0 expandedArgs
  else reap env fuel sh0

/-- The state that `main` sets up before the loop (lines 482-493), with
`listHead` the block that `malloc` returned: `lastStatus = 0`, a list made of
the head node alone, and the global `foregroundOnly = 0` (line 14). -/
def initialShell (listHead : Nat) : Shell where
  foregroundOnly := 0
  lastStatus := 0
  heap := fun a => if a = listHead then some ⟨-1, none, none⟩ else none
  listHead := listHead
  calls := 0
  out := [Event.stdout "smallsh\n".toList]

/-- An operating system for the examples: process id 4242, `HOME=/home/u`,
current directory `/tmp`, `fork` returning the child 1234 whose blocking wait
stores `childStatus`, `malloc` returning address 1, and every non-blocking
`waitpid` answering `answer`. -/
def sampleEnv (childStatus : Int) (answer : WaitResult) : Env where
  pid := 4242
  home := some "/home/u".toList
  cwd := "/tmp".toList
  forkResult := 1234
  childStatus := childStatus
  newProcess := 1
  waitpid := fun _ _ => answer

/-- The process ids of the list, read by following `next` from a node. -/
def listPids : Nat → Heap → Option Nat → Option (List Int)
  | 0, _, _ => none
  | _ + 1, _, none => some []
  | fuel + 1, h, some a =>
    (h a).bind fun node => (listPids fuel h node.next).map fun l => node.processID :: l

/-- The process ids of the registered background processes: the nodes after
the head. -/
def jobTable (fuel : Nat) (h : Heap) (listHead : Nat) : Option (List Int) :=
  (h listHead).bind fun head => listPids fuel h head.next

/-! ### The list as a sequence of jobs -/

/-- The address of the first node of a sequence of (address, process id)
pairs, NULL for the empty sequence. -/
def firstAddr (cells : List (Nat × Int)) : Option Nat := cells.head?.map Prod.fst

/-- `Linked h prev cells`: the heap holds a node for every pair of `cells`,
with that process id, with `next` pointing to the following node (NULL at the
end) and `prev` pointing to the node before (`prev` for the first one). -/
def Linked (h : Heap) : Option Nat → List (Nat × Int) → Prop
  | _, [] => True
  | prev, c :: rest => h c.1 = some ⟨c.2, firstAddr rest, prev⟩ ∧ Linked h (some c.1) rest

/-- The heap holds the job table `jobs` behind the head node `listHead`: a
doubly linked list without repeated nodes, the head node first. -/
def IsTable (h : Heap) (listHead : Nat) (jobs : List (Nat × Int)) : Prop :=
  (∃ headPid, Linked h none ((listHead, headPid) :: jobs)) ∧
    (listHead :: jobs.map Prod.fst).Nodup

/-- Every job of the table is reported as unchanged, exited or terminated by
a signal, the first job being asked by the poll number `calls`. -/
def AllReported (waitpid : Nat → Int → WaitResult) : Nat → List (Nat × Int) → Prop
  | _, [] => True
  | calls, c :: rest =>
    ((waitpid calls c.2).waitVal = 0 ∨ WIFEXITED (waitpid calls c.2).status = true ∨
      WIFSIGNALED (waitpid calls c.2).status = true) ∧ AllReported waitpid (calls + 1) rest

/-- The jobs reported unchanged, in their original order. -/
def survivors (waitpid : Nat → Int → WaitResult) : Nat → List (Nat × Int) → List (Nat × Int)
  | _, [] => []
  | calls, c :: rest =>
    if (waitpid calls c.2).waitVal = 0 then c :: survivors waitpid (calls + 1) rest
    else survivors waitpid (calls + 1) rest

/-- The completion notice in the words of the specification, for a job whose
poll answered `r`: `background pid N is done: exit value N` for a normal exit
and `background pid N is done: terminated by signal N` otherwise, between two
newlines, with the process id and the status word in decimal. -/
def noticeText (pid : Int) (r : WaitResult) : CString :=
  if WIFEXITED r.status then
    "\nbackground pid ".toList ++ intText pid ++ " is done: exit value ".toList
      ++ intText r.status ++ "\n".toList
  else
    "\nbackground pid ".toList ++ intText pid ++ " is done: terminated by signal ".toList
      ++ intText r.status ++ "\n".toList

/-- The events of one reap pass over `jobs`: one poll per job in table order,
followed by one completion notice when the job is not reported unchanged. -/
def reapEvents (waitpid : Nat → Int → WaitResult) : Nat → List (Nat × Int) → List Event
  | _, [] => []
  | calls, c :: rest =>
    if (waitpid calls c.2).waitVal = 0 then
      Event.poll c.2 :: reapEvents waitpid (calls + 1) rest
    else
      Event.poll c.2 :: Event.stdout (noticeText c.2 (waitpid calls c.2))
        :: reapEvents waitpid (calls + 1) rest

/-- The jobs not reported unchanged, in table order: the process id of each
with the answer of its poll. -/
def finishedJobs (waitpid : Nat → Int → WaitResult) :
    Nat → List (Nat × Int) → List (Int × WaitResult)
  | _, [] => []
  | calls, c :: rest =>
    if (waitpid calls c.2).waitVal = 0 then finishedJobs waitpid (calls + 1) rest
    else (c.2, waitpid calls c.2) :: finishedJobs waitpid (calls + 1) rest

/-- The process id of a poll event. -/
def polledPid : Event → Option Int
  | Event.poll pid => some pid
  | _ => none

/-- Whether an event is a text written to standard output. -/
def isNotice : Event → Bool
  | Event.stdout _ => true
  | _ => false

/-- A heap for the examples: the head node at address 0 and three background
processes 11, 12, 13 at the addresses 1, 2, 3. -/
def exampleHeap : Heap := fun a =>
  if a = 0 then some ⟨-1, some 1, none⟩
  else if a = 1 then some ⟨11, some 2, some 0⟩
  else if a = 2 then some ⟨12, some 3, some 1⟩
  else if a = 3 then some ⟨13, none, some 2⟩
  else none

/-- Poll answers for the examples: process 11 exited with code 1 (status 256),
process 12 is unchanged, any other process was killed by signal 9. -/
def exampleWaitpid : Nat → Int → WaitResult := fun _ pid =>
  if pid = 11 then ⟨11, 256⟩ else if pid = 12 then ⟨0, 0⟩ else ⟨pid, 9⟩

/-! ### The handler of the mode-toggle signal -/

/-- `write(1, buf, count)` with `buf` a string literal: the `count` bytes that
start at the literal, its terminating NUL included; no value when `count` runs
past the terminator. -/
def writeLiteral (literal : CString) (count : Nat) : Option (List Char) :=
  if count ≤ literal.length + 1 then some ((literal ++ [Char.ofNat 0]).take count) else none

/-- `handle_CTLZ` (lines 42-58): the new value of the global `foregroundOnly`
and the bytes written to file descriptor 1. -/
def handle_CTLZ (foregroundOnly : Int) : Int × Option (List Char) :=
  if foregroundOnly = 0 then
    (1, writeLiteral "Entering foreground-only mode (& is now ignored)".toList 49)
  else
    (0, writeLiteral "Exiting foreground-only mode".toList 28)

/-- The expanded line is a command run on the foreground path, and this
process is the shell that goes on after `fork`: the first token is neither a
comment nor a builtin, the test of line 567 fails, and `fork` returned a child. -/
def RunsForeground (env : Env) (sh : Shell) (expandedArgs : CString) : Prop :=
  ∃ inputToken backgroundCommand,
    (strtok_r expandedArgs).1 = some inputToken ∧
    inputToken.head? ≠ some (Char.ofNat 35) ∧
    inputToken ≠ "exit".toList ∧ inputToken ≠ "cd".toList ∧ inputToken ≠ "status".toList ∧
    checkBackgroundCommand expandedArgs = some backgroundCommand ∧
    launchPath sh.foregroundOnly backgroundCommand = Path.foreground ∧
    env.forkResult ≠ -1 ∧ env.forkResult ≠ 0

/-! ### Redirection in the child -/

/-- What a standard stream of the child is bound to: the stream inherited from
the shell, a file opened under the given name, or `/dev/null`. -/
inductive Binding
  | inherited
  | file (path : CString)
  | nullDevice
  deriving DecidableEq, Repr

/-- The flags of the three `open` calls of `redirectIO`: `O_RDONLY`,
`O_WRONLY | O_CREAT | O_TRUNC`, `O_RDWR`. -/
inductive OpenMode
  | readOnly
  | writeCreateTruncate
  | readWrite
  deriving DecidableEq, Repr

/-- The locals of `redirectIO` and the two standard streams of the child. -/
structure Redirect where
  inPath : CString
  outPath : CString
  inRedirected : Int
  outRedirected : Int
  stdin : Binding
  stdout : Binding
  deriving DecidableEq, Repr

/-- What `redirectIO` did: its return value, the streams of the child, and
what it printed. -/
structure Redirected where
  result : Int
  stdin : Binding
  stdout : Binding
  out : List Event
  deriving DecidableEq, Repr

/-- The `while (token != NULL)` loop of `redirectIO` (lines 217-252).
`openOk path mode` tells whether `open` succeeds. The paths are built by
`strcat` in the 250-byte buffers `inPath` and `outPath`. Returns -1 for the
early `return -1`, 0 when the loop ends. -/
def redirectLoop (openOk : CString → OpenMode → Bool) :
    Nat → Option CString → CString → Redirect → Option (Int × Redirect × List Event)
  | 0, _, _, _ => none
  | _ + 1, none, _, st => some (0, st, [])
  | fuel + 1, some token, IOptr, st =>
    if token = "<".toList then
      (strtok_r IOptr).1.bind fun pathToken =>
      (strcat 250 st.inPath pathToken).bind fun inPath1 =>
      if openOk inPath1 OpenMode.readOnly then
        redirectLoop openOk fuel (strtok_r (strtok_r IOptr).2).1 (strtok_r (strtok_r IOptr).2).2
          { st with inRedirected := 1, inPath := inPath1, stdin := Binding.file inPath1 }
      else
        some (-1, { st with inRedirected := 1, inPath := inPath1 },
          [Event.stdout ("Unable to open ".toList ++ pathToken ++ " for Input\n:".toList)])
    else if token = ">".toList then
      (strtok_r IOptr).1.bind fun pathToken =>
      (strcat 250 st.outPath pathToken).bind fun outPath1 =>
      if openOk outPath1 OpenMode.writeCreateTruncate then
        redirectLoop openOk fuel (strtok_r (strtok_r IOptr).2).1 (strtok_r (strtok_r IOptr).2).2
          { st with outRedirected := 1, outPath := outPath1, stdout := Binding.file outPath1 }
      else
        some (-1, { st with outRedirected := 1, outPath := outPath1 },
          [Event.stdout ("Unable to open ".toList ++ pathToken ++ " for Output\n:".toList)])
    else
      redirectLoop openOk fuel (strtok_r IOptr).1 (strtok_r IOptr).2 st

/-- `redirectIO` (lines 191-262) in the child whose current directory is
`cwd`. `getcwd(inPath, 249)` needs the directory and its terminator to fit.
After the loop `/dev/null` is opened and, for `foreground == 0`, bound to each
stream that was not redirected. -/
def redirectIO (openOk : CString → OpenMode → Bool) (cwd expandedArgs : CString)
    (foreground : Int) : Option Redirected :=
  if cwd.length + 1 ≤ 249 then
    (strcat 250 cwd "/".toList).bind fun base =>
    (redirectLoop openOk (expandedArgs.length + 1) (strtok_r expandedArgs).1
        (strtok_r expandedArgs).2
        ⟨base, base, 0, 0, Binding.inherited, Binding.inherited⟩).bind fun r =>
    if r.1 = -1 then some ⟨-1, r.2.1.stdin, r.2.1.stdout, r.2.2⟩
    else
      some ⟨0,
        if r.2.1.inRedirected = 0 ∧ foreground = 0
            ∧ openOk "/dev/null".toList OpenMode.readWrite = true then
          Binding.nullDevice else r.2.1.stdin,
        if r.2.1.outRedirected = 0 ∧ foreground = 0
            ∧ openOk "/dev/null".toList OpenMode.readWrite = true then
          Binding.nullDevice else r.2.1.stdout,
        r.2.2⟩
  else none

/-- The redirections of a line, in order: for every `<` (`true`) or `>`
(`false`) token that is not itself taken as a path, the token that follows it,
if there is one. -/
def redirections : List CString → List (Bool × Option CString)
  | [] => []
  | [t] =>
    if t = "<".toList then [(true, none)] else if t = ">".toList then [(false, none)] else []
  | t :: u :: rest =>
    if t = "<".toList then (true, some u) :: redirections rest
    else if t = ">".toList then (false, some u) :: redirections rest
    else redirections (u :: rest)

/-- The loop of `redirectIO` as a pass over the redirections of the line. -/
def applyRedirections (openOk : CString → OpenMode → Bool) :
    List (Bool × Option CString) → Redirect → Option (Int × Redirect × List Event)
  | [], st => some (0, st, [])
  | (_, none) :: _, _ => none
  | (true, some pathToken) :: rest, st =>
    (strcat 250 st.inPath pathToken).bind fun inPath1 =>
    if openOk inPath1 OpenMode.readOnly then
      applyRedirections openOk rest
        { st with inRedirected := 1, inPath := inPath1, stdin := Binding.file inPath1 }
    else
      some (-1, { st with inRedirected := 1, inPath := inPath1 },
        [Event.stdout ("Unable to open ".toList ++ pathToken ++ " for Input\n:".toList)])
  | (false, some pathToken) :: rest, st =>
    (strcat 250 st.outPath pathToken).bind fun outPath1 =>
    if openOk outPath1 OpenMode.writeCreateTruncate then
      applyRedirections openOk rest
        { st with outRedirected := 1, outPath := outPath1, stdout := Binding.file outPath1 }
    else
      some (-1, { st with outRedirected := 1, outPath := outPath1 },
        [Event.stdout ("Unable to open ".toList ++ pathToken ++ " for Output\n:".toList)])

theorem sizeSub_of_le {a b : Nat} (ha : a < 2 ^ 64) (hb : b ≤ a) : sizeSub a b = a - b := by
  unfold sizeSub
  have hb2 : b < 2 ^ 64 := lt_of_le_of_lt hb ha
  rw [Nat.mod_eq_of_lt ha, Nat.mod_eq_of_lt hb2]
  have : a + 2 ^ 64 - b = (a - b) + 2 ^ 64 := by omega
  rw [this, Nat.add_mod_right, Nat.mod_eq_of_lt (by omega)]

theorem charAt_of_drop {s : CString} {i : Nat} {c : Char} {rest : CString}
    (h : s.drop i = c :: rest) : charAt s i = some c := by
  have hi : i < s.length := by
    by_contra hcon
    rw [List.drop_eq_nil_of_le (by omega)] at h
    cases h
  unfold charAt
  rw [if_pos hi]
  have := List.drop_eq_getElem_cons hi
  rw [this] at h
  injection h with h1 h2
  rw [List.get?_eq_getElem?, List.getElem?_eq_getElem hi, h1]

theorem drop_succ_of_drop {s : CString} {i : Nat} {c : Char} {rest : CString}
    (h : s.drop i = c :: rest) : s.drop (i + 1) = rest := by
  have : s.drop (i + 1) = (s.drop i).drop 1 := by
    rw [List.drop_drop, Nat.add_comm]
  rw [this, h]; rfl

theorem length_of_drop {s : CString} {i : Nat} {suffix : CString}
    (h : s.drop i = suffix) : suffix.length = s.length - i := by
  rw [← h, List.length_drop]

theorem mem_of_drop {s : CString} {i : Nat} {c : Char} {rest : CString}
    (h : s.drop i = c :: rest) : c ∈ s := by
  have : c ∈ s.drop i := by rw [h]; exact List.mem_cons_self _ _
  exact List.mem_of_mem_drop this

theorem letterOf_of_mem {s : CString} (hs : Char.ofNat 0 ∉ s) {c : Char} (hc : c ∈ s) :
    letterOf c = [c] := by
  unfold letterOf
  rw [if_neg]
  rintro rfl
  exact hs hc

theorem isDollar_singleton (c : Char) : isDollar [c] = decide (c = dollar) := by
  unfold isDollar
  by_cases h : c = dollar <;> simp [h]

theorem greedyScan_pair (P : CString) (c d : Char) (rest : CString)
    (h : c = dollar ∧ d = dollar) :
    greedyScan P (c :: d :: rest) = P ++ greedyScan P rest := by
  rw [greedyScan, if_pos h]

theorem greedyScan_single (P : CString) (c d : Char) (rest : CString)
    (h : ¬ (c = dollar ∧ d = dollar)) :
    greedyScan P (c :: d :: rest) = c :: greedyScan P (d :: rest) := by
  rw [greedyScan, if_neg h]

theorem greedyPairs_pair (c d : Char) (rest : CString) (h : c = dollar ∧ d = dollar) :
    greedyPairs (c :: d :: rest) = greedyPairs rest + 1 := by
  rw [greedyPairs, if_pos h]

theorem greedyPairs_single (c d : Char) (rest : CString) (h : ¬ (c = dollar ∧ d = dollar)) :
    greedyPairs (c :: d :: rest) = greedyPairs (d :: rest) := by
  rw [greedyPairs, if_neg h]

theorem dollar_test (c d : Char) :
    (isDollar [d] && isDollar [c]) = decide (c = dollar ∧ d = dollar) := by
  rw [isDollar_singleton, isDollar_singleton]
  by_cases hc : c = dollar <;> by_cases hd : d = dollar <;> simp [hc, hd]

/-- The copy loop, started at `index = i` with `acc` already copied, stops at
the last character or past it, having appended the greedy scan of what it
consumed. -/
theorem copyExpanded_spec (P args : CString) (cap : Nat) (hs : IsCString args)
    (hne : 1 ≤ args.length) :
    ∀ (suffix : CString) (fuel i : Nat) (acc : CString),
      args.drop i = suffix → i ≤ args.length → suffix.length + 1 ≤ fuel →
      acc.length + (greedyScan P suffix).length + 1 ≤ cap →
      ∃ j acc1, copyExpanded P args cap fuel i acc = some (j, acc1) ∧
        args.length - 1 ≤ j ∧ j ≤ args.length ∧
        acc1 ++ args.drop j = acc ++ greedyScan P suffix
  | [], fuel, i, acc, hdrop, hi, hfuel, _ => by
    obtain ⟨f, rfl⟩ : ∃ f, fuel = f + 1 := ⟨fuel - 1, by simp at hfuel; omega⟩
    have hlen := length_of_drop hdrop
    simp only [List.length_nil] at hlen
    have hsz : sizeSub args.length 1 = args.length - 1 := sizeSub_of_le hs.2 hne
    refine ⟨i, acc, ?_, by omega, hi, ?_⟩
    · rw [copyExpanded, hsz, if_neg (by omega)]
    · rw [hdrop]; rfl
  | [c], fuel, i, acc, hdrop, hi, hfuel, _ => by
    obtain ⟨f, rfl⟩ : ∃ f, fuel = f + 1 := ⟨fuel - 1, by simp at hfuel; omega⟩
    have hlen := length_of_drop hdrop
    simp only [List.length_singleton] at hlen
    have hsz : sizeSub args.length 1 = args.length - 1 := sizeSub_of_le hs.2 hne
    refine ⟨i, acc, ?_, by omega, hi, ?_⟩
    · rw [copyExpanded, hsz, if_neg (by omega)]
    · rw [hdrop]; rfl
  | c :: d :: rest, fuel, i, acc, hdrop, hi, hfuel, hcap => by
    obtain ⟨f, rfl⟩ : ∃ f, fuel = f + 1 := ⟨fuel - 1, by simp at hfuel; omega⟩
    have hlen := length_of_drop hdrop
    simp only [List.length_cons] at hlen hfuel
    have hsz : sizeSub args.length 1 = args.length - 1 := sizeSub_of_le hs.2 hne
    have hc := charAt_of_drop hdrop
    have hdrop1 := drop_succ_of_drop hdrop
    have hd := charAt_of_drop hdrop1
    have hdrop2 := drop_succ_of_drop hdrop1
    have hlc := letterOf_of_mem hs.1 (mem_of_drop hdrop)
    have hld := letterOf_of_mem hs.1 (mem_of_drop hdrop1)
    rw [copyExpanded, hsz, if_pos (by omega)]
    simp only [hc, hd, hlc, hld, dollar_test]
    by_cases hcd : c = dollar ∧ d = dollar
    · rw [greedyScan_pair P c d rest hcd] at hcap ⊢
      simp only [List.length_append] at hcap
      simp only [hcd, and_self, decide_True, if_true, strcat]
      rw [if_pos (by omega)]
      obtain ⟨j, acc1, h1, h2, h3, h4⟩ :=
        copyExpanded_spec P args cap hs hne rest f (i + 1 + 1) (acc ++ P) hdrop2 (by omega)
          (by omega) (by simp only [List.length_append]; omega)
      exact ⟨j, acc1, h1, h2, h3, by rw [h4, List.append_assoc]⟩
    · rw [greedyScan_single P c d rest hcd] at hcap ⊢
      simp only [List.length_cons] at hcap
      simp only [hcd, decide_False, Bool.false_eq_true, if_false, strcat, List.length_singleton]
      rw [if_pos (by omega)]
      obtain ⟨j, acc1, h1, h2, h3, h4⟩ :=
        copyExpanded_spec P args cap hs hne (d :: rest) f (i + 1) (acc ++ [c]) hdrop1 (by omega)
          (by simp only [List.length_cons]; omega)
          (by simp only [List.length_append, List.length_singleton]; omega)
      exact ⟨j, acc1, h1, h2, h3, by rw [h4]; simp⟩

/-- The counting loop, at `index = i + 1`, adds the number of pairs of the
greedy scan of the characters from `i` on. -/
theorem countDoubles_spec (args : CString) (hs : IsCString args) :
    ∀ (suffix : CString) (fuel i cnt : Nat),
      args.drop i = suffix → i ≤ args.length → suffix.length + 1 ≤ fuel →
      countDoubles args fuel (i + 1) cnt = some (cnt + greedyPairs suffix)
  | [], fuel, i, cnt, hdrop, hi, hfuel => by
    obtain ⟨f, rfl⟩ : ∃ f, fuel = f + 1 := ⟨fuel - 1, by simp at hfuel; omega⟩
    have hlen := length_of_drop hdrop
    simp only [List.length_nil] at hlen
    rw [countDoubles, if_neg (by omega)]; rfl
  | [c], fuel, i, cnt, hdrop, hi, hfuel => by
    obtain ⟨f, rfl⟩ : ∃ f, fuel = f + 1 := ⟨fuel - 1, by simp at hfuel; omega⟩
    have hlen := length_of_drop hdrop
    simp only [List.length_singleton] at hlen
    rw [countDoubles, if_neg (by omega)]; rfl
  | c :: d :: rest, fuel, i, cnt, hdrop, hi, hfuel => by
    obtain ⟨f, rfl⟩ : ∃ f, fuel = f + 1 := ⟨fuel - 1, by simp at hfuel; omega⟩
    have hlen := length_of_drop hdrop
    simp only [List.length_cons] at hlen hfuel
    have hc := charAt_of_drop hdrop
    have hdrop1 := drop_succ_of_drop hdrop
    have hd := charAt_of_drop hdrop1
    have hdrop2 := drop_succ_of_drop hdrop1
    have hlc := letterOf_of_mem hs.1 (mem_of_drop hdrop)
    have hld := letterOf_of_mem hs.1 (mem_of_drop hdrop1)
    rw [countDoubles, if_pos (by omega)]
    simp only [Nat.add_sub_cancel, hc, hd, hlc, hld, dollar_test]
    by_cases hcd : c = dollar ∧ d = dollar
    · rw [greedyPairs_pair c d rest hcd]
      simp only [hcd, and_self, decide_True, if_true]
      rw [countDoubles_spec args hs rest f (i + 1 + 1) (cnt + 1) hdrop2 (by omega) (by omega)]
      congr 1; omega
    · rw [greedyPairs_single c d rest hcd]
      simp only [hcd, decide_False, Bool.false_eq_true, if_false]
      exact countDoubles_spec args hs (d :: rest) f (i + 1) cnt hdrop1 (by omega)
        (by simp only [List.length_cons]; omega)

/-- Length of the greedy scan: each expanded pair trades two characters for the
process-id text. -/
theorem greedyScan_length (P : CString) :
    ∀ s : CString, (greedyScan P s).length + 2 * greedyPairs s
      = s.length + P.length * greedyPairs s
  | [] => by simp [greedyScan, greedyPairs]
  | [c] => by simp [greedyScan, greedyPairs]
  | c :: d :: rest => by
    by_cases hcd : c = dollar ∧ d = dollar
    · rw [greedyScan_pair P c d rest hcd, greedyPairs_pair c d rest hcd]
      have ih := greedyScan_length P rest
      simp only [List.length_append, List.length_cons]
      rw [Nat.mul_add, Nat.mul_add]
      omega
    · rw [greedyScan_single P c d rest hcd, greedyPairs_single c d rest hcd]
      have ih := greedyScan_length P (d :: rest)
      simp only [List.length_cons] at ih ⊢
      omega

/-- On a non-empty C string `expandVariables` returns, and returns the greedy
scan. -/
theorem expandVariables_eq (P args : CString) (hs : IsCString args) (hne : args ≠ []) :
    expandVariables P args = some (greedyScan P args) := by
  have hlen : 1 ≤ args.length := by
    cases args with
    | nil => exact absurd rfl hne
    | cons a l => simp
  have hcount := countDoubles_spec args hs args (args.length + 1) 0 0 rfl (by omega) (by omega)
  have hgl := greedyScan_length P args
  obtain ⟨j, acc1, h1, h2, h3, h4⟩ :=
    copyExpanded_spec P args (args.length + P.length * greedyPairs args + 1) hs hlen args
      (args.length + 1) 0 [] rfl (by omega) (by omega) (by simp only [List.length_nil]; omega)
  simp only [List.nil_append] at h4
  have hcount1 : countDoubles args (args.length + 1) 1 0 = some (greedyPairs args) := by
    rw [hcount, Nat.zero_add]
  have hsz := sizeSub_of_le hs.2 h3
  by_cases hj : j = args.length
  · have hne1 : ¬ (sizeSub args.length j = 1) := by omega
    rw [hj, List.drop_length, List.append_nil] at h4
    refine Option.bind_eq_some.mpr ⟨greedyPairs args, hcount1, ?_⟩
    refine Option.bind_eq_some.mpr ⟨(j, acc1), h1, ?_⟩
    show (if sizeSub args.length j = 1 then _ else some acc1) = _
    rw [if_neg hne1, h4]
  · have heq1 : sizeSub args.length j = 1 := by omega
    have hjlt : j < args.length := by omega
    have hdj := List.drop_eq_getElem_cons hjlt
    have hnil : args.drop (j + 1) = [] := List.drop_eq_nil_of_le (by omega)
    rw [hnil] at hdj
    have hch := charAt_of_drop hdj
    have hlet := letterOf_of_mem hs.1 (mem_of_drop hdj)
    rw [hdj] at h4
    have hl : acc1.length + 1 = (greedyScan P args).length := by
      rw [← h4]; simp
    have hcat : strcat (args.length + P.length * greedyPairs args + 1) acc1 [args[j]]
        = some (greedyScan P args) := by
      rw [strcat, List.length_singleton, if_pos (by omega), h4]
    refine Option.bind_eq_some.mpr ⟨greedyPairs args, hcount1, ?_⟩
    refine Option.bind_eq_some.mpr ⟨(j, acc1), h1, ?_⟩
    show (if sizeSub args.length j = 1 then _ else some acc1) = _
    rw [if_pos heq1]
    refine Option.bind_eq_some.mpr ⟨args[j], hch, ?_⟩
    rw [hlet]
    exact hcat

/-- C1: on every non-empty line, for every process-id text `P`,
`expandVariables` returns exactly the greedy left-to-right scan (two `$` in a
row give `P` and advance by two, any other character is copied and advances by
one); so `echo $$` gives `echo P`, `a$$$$b` gives `aPPb`, `a$$$b` gives `aP$b`,
and a lone trailing `$` is copied as it is. -/
theorem expandVariables_greedy (P args : CString) (hs : IsCString args) (hne : args ≠ []) :
    expandVariables P args = some (greedyScan P args) ∧
    expandVariables P "echo $$".toList = some ("echo ".toList ++ P) ∧
    expandVariables P "a$$$$b".toList = some ("a".toList ++ P ++ P ++ "b".toList) ∧
    expandVariables P "a$$$b".toList = some ("a".toList ++ P ++ "$b".toList) ∧
    expandVariables P "echo $".toList = some "echo $".toList := by
  refine ⟨expandVariables_eq P args hs hne, ?_, ?_, ?_, ?_⟩
  · rw [expandVariables_eq P _ (by decide) (by decide)]
    simp [greedyScan, dollar]
  · rw [expandVariables_eq P _ (by decide) (by decide)]
    simp [greedyScan, dollar]
  · rw [expandVariables_eq P _ (by decide) (by decide)]
    simp [greedyScan, dollar]
  · rw [expandVariables_eq P _ (by decide) (by decide)]
    simp [greedyScan, dollar]

/-- Witness for C1: the line `ps $$ $$$` with process id text `4242`. -/
theorem expandVariables_greedy_witness :
    IsCString "ps $$ $$$".toList ∧ "ps $$ $$$".toList ≠ [] ∧
    expandVariables "4242".toList "ps $$ $$$".toList = some "ps 4242 4242$".toList :=
  ⟨by decide, by decide,
    (expandVariables_greedy "4242".toList "ps $$ $$$".toList (by decide) (by decide)).1⟩

/-- Every further digit step of `Nat.toDigitsCore` adds at least one character. -/
theorem toDigitsCore_length_ge (b : Nat) :
    ∀ (f n : Nat) (tl : List Char), tl.length + 1 ≤ (Nat.toDigitsCore b (f + 1) n tl).length := by
  intro f
  induction f with
  | zero =>
    intro n tl
    simp only [Nat.toDigitsCore]
    split <;> simp
  | succ f ih =>
    intro n tl
    rw [Nat.toDigitsCore]
    split
    · simp
    · have := ih (n / b) (Nat.digitChar (n % b) :: tl)
      simp only [List.length_cons] at this
      omega

/-- A process id of 10 or more has at least two decimal digits. -/
theorem pidText_length (pid : Nat) (h : 10 ≤ pid) : 2 ≤ (pidText pid).length := by
  unfold pidText Nat.toDigits
  obtain ⟨f, rfl⟩ : ∃ f, pid = f + 1 := ⟨pid - 1, by omega⟩
  rw [Nat.toDigitsCore]
  have hdiv : (f + 1) / 10 ≠ 0 := by omega
  rw [if_neg hdiv]
  have := toDigitsCore_length_ge 10 f ((f + 1) / 10) [Nat.digitChar ((f + 1) % 10)]
  simpa using this

/-- C10 as stated fails: with the one-digit process id 7 the line `echo $$`
(7 characters) expands to `echo 7` (6 characters). -/
theorem expandVariables_shorter_counterexample :
    ¬ (∀ (pid : Nat) (args out : CString), 0 < pid → IsCString args → args ≠ [] →
        expandVariables (pidText pid) args = some out → args.length ≤ out.length) := by
  intro h
  have := h 7 "echo $$".toList "echo 7".toList (by decide) (by decide) (by decide) (by decide)
  exact absurd this (by decide)

/-- C10 amended: for every non-empty line and every process id of at least two
decimal digits (10 or more), `expandVariables` returns a string at least as
long as the line; for every process id the returned length is the line length
minus two plus the length of the process-id text for each expanded pair. -/
theorem expandVariables_length (pid : Nat) (args : CString) (hs : IsCString args)
    (hne : args ≠ []) :
    ∃ out, expandVariables (pidText pid) args = some out ∧
      out.length + 2 * greedyPairs args = args.length + (pidText pid).length * greedyPairs args ∧
      (10 ≤ pid → args.length ≤ out.length) := by
  refine ⟨greedyScan (pidText pid) args, expandVariables_eq _ args hs hne,
    greedyScan_length _ args, ?_⟩
  intro hpid
  have h1 := greedyScan_length (pidText pid) args
  have h2 := pidText_length pid hpid
  have h3 : 2 * greedyPairs args ≤ (pidText pid).length * greedyPairs args :=
    Nat.mul_le_mul_right _ h2
  omega

/-- Witness for amended C10: process id 4242 and the line `kill $$`. -/
theorem expandVariables_length_witness :
    IsCString "kill $$".toList ∧ "kill $$".toList ≠ [] ∧
    ∃ out, expandVariables (pidText 4242) "kill $$".toList = some out ∧
      out.length + 2 * greedyPairs "kill $$".toList
        = "kill $$".toList.length + (pidText 4242).length * greedyPairs "kill $$".toList ∧
      (10 ≤ 4242 → "kill $$".toList.length ≤ out.length) :=
  ⟨by decide, by decide, expandVariables_length 4242 "kill $$".toList (by decide) (by decide)⟩

/-! ## Tokens -/

theorem splitOn_space_eq (r : CString) :
    r.splitOn space = r.takeWhile (fun d => d != space) ::
      (match r.dropWhile (fun d => d != space) with
        | [] => []
        | _ :: r1 => r1.splitOn space) := by
  induction r with
  | nil => rfl
  | cons x xs ih =>
    unfold List.splitOn at ih ⊢
    rw [List.splitOnP_cons]
    by_cases hx : x = space
    · subst hx
      simp
    · have h1 : (x == space) = false := by simpa using hx
      have h2 : (x != space) = true := by simpa using hx
      rw [h1]
      simp only [Bool.false_eq_true, if_false]
      rw [ih, List.takeWhile_cons, List.dropWhile_cons, h2]
      simp only [if_true]
      rfl

theorem tokens_nil : tokens [] = [] := by decide

theorem tokens_cons_space (r : CString) : tokens (space :: r) = tokens r := by
  unfold tokens List.splitOn
  rw [List.splitOnP_cons]
  simp

theorem tokens_cons_other (c : Char) (r : CString) (hc : c ≠ space) :
    tokens (c :: r) = (c :: r.takeWhile (fun d => d != space)) ::
      tokens ((r.dropWhile (fun d => d != space)).drop 1) := by
  have h1 : (c == space) = false := by simpa using hc
  have hsplit := splitOn_space_eq r
  unfold tokens
  unfold List.splitOn at hsplit ⊢
  rw [List.splitOnP_cons, h1]
  simp only [Bool.false_eq_true, if_false]
  rw [hsplit]
  cases hd : r.dropWhile (fun d => d != space) with
  | nil => simp [List.modifyHead]
  | cons y ys =>
    simp only [List.modifyHead, List.drop_one, List.tail_cons]
    rw [List.filter_cons]
    simp

theorem strtok_r_cons_space (r : CString) : strtok_r (space :: r) = strtok_r r := by
  unfold strtok_r
  simp [List.dropWhile_cons]

theorem strtok_r_cons_other (c : Char) (r : CString) (hc : c ≠ space) :
    strtok_r (c :: r) = (some (c :: r.takeWhile (fun d => d != space)),
      (r.dropWhile (fun d => d != space)).drop 1) := by
  have h1 : (c == space) = false := by simpa using hc
  unfold strtok_r
  rw [List.dropWhile_cons, h1]
  rfl

/-- The tokens of a text are the token that `strtok_r` returns followed by the
tokens of the text at the save pointer; NULL means that no token is left. -/
theorem tokens_eq_strtok_r (s : CString) :
    tokens s = (match (strtok_r s).1 with
      | none => []
      | some t => t :: tokens (strtok_r s).2) := by
  induction s with
  | nil => rfl
  | cons c r ih =>
    by_cases hc : c = space
    · subst hc
      rw [tokens_cons_space, strtok_r_cons_space]
      exact ih
    · rw [tokens_cons_other c r hc, strtok_r_cons_other c r hc]

/-- After NULL the save pointer is at the end of the text. -/
theorem strtok_r_none (s : CString) (h : (strtok_r s).1 = none) : (strtok_r s).2 = [] := by
  induction s with
  | nil => rfl
  | cons c r ih =>
    by_cases hc : c = space
    · subst hc
      rw [strtok_r_cons_space] at h ⊢
      exact ih h
    · rw [strtok_r_cons_other c r hc] at h
      cases h

/-- `strtok_r` moves the save pointer forward. -/
theorem strtok_r_length (s : CString) : (strtok_r s).2.length ≤ s.length - 1 := by
  induction s with
  | nil => decide
  | cons c r ih =>
    by_cases hc : c = space
    · subst hc
      rw [strtok_r_cons_space]
      simp only [List.length_cons, Nat.add_sub_cancel]
      omega
    · rw [strtok_r_cons_other c r hc]
      simp only [List.length_cons, Nat.add_sub_cancel, List.length_drop]
      have := (List.dropWhile_sublist (l := r) (fun d => d != space)).length_le
      omega

theorem tokens_of_none (s : CString) (h : (strtok_r s).1 = none) : tokens s = [] := by
  rw [tokens_eq_strtok_r, h]

theorem tokens_of_some (s t : CString) (h : (strtok_r s).1 = some t) :
    tokens s = t :: tokens (strtok_r s).2 := by
  rw [tokens_eq_strtok_r, h]

/-- The tokens that remain after the next one. -/
theorem tokens_save (s : CString) : tokens (strtok_r s).2 = (tokens s).drop 1 := by
  cases h : (strtok_r s).1 with
  | none => rw [strtok_r_none s h, tokens_of_none s h]; rfl
  | some t => rw [tokens_of_some s t h]; rfl

/-- A text has at most as many tokens as characters. -/
theorem tokens_length_le : ∀ (n : Nat) (s : CString), s.length ≤ n → (tokens s).length ≤ s.length
  | 0, s, hn => by
    have : s = [] := List.eq_nil_of_length_eq_zero (by omega)
    subst this; decide
  | n + 1, s, hn => by
    cases h : (strtok_r s).1 with
    | none => rw [tokens_of_none s h]; simp
    | some t =>
      have hlen := strtok_r_length s
      have hpos : 0 < s.length := by
        cases s with
        | nil => cases h
        | cons c r => simp
      rw [tokens_of_some s t h]
      have ih := tokens_length_le n (strtok_r s).2 (by omega)
      simp only [List.length_cons]
      omega

theorem pending_strtok_r (s : CString) : pending (strtok_r s).1 (strtok_r s).2 = tokens s := by
  unfold pending
  rw [tokens_eq_strtok_r s]

theorem pending_nil {token : Option CString} {saveptr : CString}
    (h : pending token saveptr = []) : token = none := by
  cases token with
  | none => rfl
  | some t => cases h

theorem pending_cons {token : Option CString} {saveptr t : CString} {rest : List CString}
    (h : pending token saveptr = t :: rest) : token = some t ∧ tokens saveptr = rest := by
  cases token with
  | none => cases h
  | some u =>
    unfold pending at h
    injection h with h1 h2
    exact ⟨by rw [h1], h2⟩

/-- The loop of `checkBackgroundCommand` ends with the flag of the last token
it saw. -/
theorem checkBackgroundLoop_spec :
    ∀ (toks : List CString) (fuel : Nat) (token : Option CString) (saveptr : CString) (bc : Int),
      pending token saveptr = toks → toks.length + 1 ≤ fuel →
      checkBackgroundLoop fuel token saveptr bc =
        some (if toks = [] then bc else if toks.getLast? = some "&".toList then 1 else 0) := by
  intro toks
  induction toks with
  | nil =>
    intro fuel token saveptr bc hp hf
    obtain ⟨f, rfl⟩ : ∃ f, fuel = f + 1 := ⟨fuel - 1, by omega⟩
    rw [pending_nil hp, checkBackgroundLoop]
    simp
  | cons t rest ih =>
    intro fuel token saveptr bc hp hf
    obtain ⟨f, rfl⟩ : ∃ f, fuel = f + 1 := ⟨fuel - 1, by omega⟩
    obtain ⟨htok, hrest⟩ := pending_cons hp
    simp only [List.length_cons] at hf
    rw [htok, checkBackgroundLoop]
    rw [ih f _ _ _ (by rw [pending_strtok_r, hrest]) (by omega)]
    cases rest with
    | nil => simp
    | cons u r => simp [List.getLast?_cons_cons]

/-- `checkBackgroundCommand` returns 1 exactly when the last token is `&`. -/
theorem checkBackgroundCommand_eq (arguments : CString) :
    checkBackgroundCommand arguments =
      some (if (tokens arguments).getLast? = some "&".toList then 1 else 0) := by
  unfold checkBackgroundCommand
  rw [checkBackgroundLoop_spec (tokens arguments) _ _ _ 0 (pending_strtok_r arguments)
    (by have := tokens_length_le arguments.length arguments (le_refl _); omega)]
  by_cases h : tokens arguments = []
  · simp [h]
  · simp [h]

theorem writeSlot_next (done : List Slot) (m : Nat) (v : Slot) :
    writeSlot (done ++ List.replicate (m + 1) Slot.uninit) done.length v
      = some (done ++ v :: List.replicate m Slot.uninit) := by
  unfold writeSlot
  rw [if_pos (by simp)]
  congr 1
  induction done with
  | nil => rfl
  | cons a l ih => simpa using ih

theorem writeSlot_after (done : List Slot) (m : Nat) (v : Slot) :
    writeSlot (done ++ List.replicate (m + 2) Slot.uninit) (done.length + 1) v
      = some (done ++ Slot.uninit :: v :: List.replicate m Slot.uninit) := by
  unfold writeSlot
  rw [if_pos (by simp)]
  congr 1
  induction done with
  | nil => rfl
  | cons a l ih => simpa using ih

theorem keptArgs_redirect (t : CString) (rest : List CString)
    (h : t = "<".toList ∨ t = ">".toList) : keptArgs (t :: rest) = keptArgs (rest.drop 1) := by
  cases rest with
  | nil =>
    rw [keptArgs.eq_2, if_pos (by tauto)]
    rfl
  | cons u r =>
    rw [keptArgs.eq_3, if_pos h]
    rfl

theorem keptArgs_background (t : CString) (rest : List CString)
    (h : ¬ (t = "<".toList ∨ t = ">".toList)) (ha : t = "&".toList) :
    keptArgs (t :: rest) = keptArgs rest := by
  cases rest with
  | nil =>
    rw [keptArgs.eq_2, if_pos (by tauto)]
    rfl
  | cons u r =>
    rw [keptArgs.eq_3, if_neg h, if_pos ha]

theorem keptArgs_keep (t : CString) (rest : List CString)
    (h : ¬ (t = "<".toList ∨ t = ">".toList)) (ha : ¬ t = "&".toList) :
    keptArgs (t :: rest) = t :: keptArgs rest := by
  cases rest with
  | nil =>
    rw [keptArgs.eq_2, if_neg (by tauto)]
    rfl
  | cons u r =>
    rw [keptArgs.eq_3, if_neg h, if_neg ha]

/-- The loop of `parseArgs` stores the kept arguments in consecutive cells from
`argIndex` on and leaves the other cells as they were. -/
theorem parseLoop_spec :
    ∀ (n : Nat) (toks : List CString) (fuel : Nat) (token : Option CString) (saveptr : CString)
      (done : List CString) (free : Nat),
      toks.length ≤ n → pending token saveptr = toks → toks.length + 1 ≤ fuel →
      (keptArgs toks).length ≤ free →
      parseLoop fuel token saveptr (done.map Slot.str ++ List.replicate free Slot.uninit)
          done.length =
        some ((done ++ keptArgs toks).map Slot.str
            ++ List.replicate (free - (keptArgs toks).length) Slot.uninit,
          done.length + (keptArgs toks).length)
  | n, [], fuel, token, saveptr, done, free, _, hp, hf, _ => by
    obtain ⟨f, rfl⟩ : ∃ f, fuel = f + 1 := ⟨fuel - 1, by omega⟩
    rw [pending_nil hp, parseLoop]
    simp [keptArgs]
  | 0, t :: rest, fuel, token, saveptr, done, free, hn, _, _, _ => by
    simp at hn
  | n + 1, t :: rest, fuel, token, saveptr, done, free, hn, hp, hf, hfree => by
    obtain ⟨f, rfl⟩ : ∃ f, fuel = f + 1 := ⟨fuel - 1, by omega⟩
    obtain ⟨htok, hrest⟩ := pending_cons hp
    simp only [List.length_cons] at hf hn
    rw [htok, parseLoop]
    by_cases hred : t = "<".toList ∨ t = ">".toList
    · rw [if_pos hred]
      rw [keptArgs_redirect t rest hred] at hfree ⊢
      have hpend : pending (strtok_r (strtok_r saveptr).2).1 (strtok_r (strtok_r saveptr).2).2
          = rest.drop 1 := by
        rw [pending_strtok_r, tokens_save, hrest]
      have hlen : (rest.drop 1).length ≤ rest.length := by
        rw [List.length_drop]; omega
      exact parseLoop_spec n (rest.drop 1) f _ _ done free (by omega) hpend (by omega) hfree
    · rw [if_neg hred]
      have hpend : pending (strtok_r saveptr).1 (strtok_r saveptr).2 = rest := by
        rw [pending_strtok_r, hrest]
      by_cases hamp : t = "&".toList
      · rw [if_neg (by simpa using hamp)]
        rw [keptArgs_background t rest hred hamp] at hfree ⊢
        exact parseLoop_spec n rest f _ _ done free (by omega) hpend (by omega) hfree
      · rw [if_pos hamp]
        rw [keptArgs_keep t rest hred hamp] at hfree ⊢
        simp only [List.length_cons] at hfree
        obtain ⟨m, rfl⟩ : ∃ m, free = m + 1 := ⟨free - 1, by omega⟩
        have hw := writeSlot_next (done.map Slot.str) m (Slot.str t)
        rw [List.length_map] at hw
        rw [hw, Option.some_bind]
        have hn1 : rest.length ≤ n := by omega
        have hf1 : rest.length + 1 ≤ f := by omega
        have hm1 : (keptArgs rest).length ≤ m := by omega
        have ih := parseLoop_spec n rest f (strtok_r saveptr).1 (strtok_r saveptr).2
          (done ++ [t]) m hn1 hpend hf1 hm1
        simp only [List.map_append, List.map_cons, List.map_nil, List.append_assoc,
          List.singleton_append, List.length_append, List.length_singleton] at ih
        simp only [List.map_append, List.map_cons, List.append_assoc, List.length_cons]
        rw [ih]
        have e1 : m + 1 - ((keptArgs rest).length + 1) = m - (keptArgs rest).length := by omega
        have e2 : done.length + ((keptArgs rest).length + 1)
            = done.length + 1 + (keptArgs rest).length := by omega
        rw [e1, e2]

/-- The cells after `parseArgs`: the kept arguments, then a cell that was never
written, then NULL. -/
theorem parseArgs_eq (expandedArgs : CString)
    (hk : (keptArgs (tokens expandedArgs)).length ≤ 512) :
    parseArgs expandedArgs =
      some ((keptArgs (tokens expandedArgs)).map Slot.str ++ Slot.uninit :: Slot.null ::
        List.replicate (512 - (keptArgs (tokens expandedArgs)).length) Slot.uninit) := by
  have hloop := parseLoop_spec (tokens expandedArgs).length (tokens expandedArgs)
    (expandedArgs.length + 1) (strtok_r expandedArgs).1 (strtok_r expandedArgs).2 [] 514
    (le_refl _) (pending_strtok_r expandedArgs)
    (by have := tokens_length_le expandedArgs.length expandedArgs (le_refl _); omega)
    (by omega)
  simp only [List.map_nil, List.nil_append, List.length_nil, Nat.zero_add] at hloop
  unfold parseArgs
  rw [hloop, Option.some_bind]
  have h514 : 514 - (keptArgs (tokens expandedArgs)).length
      = (512 - (keptArgs (tokens expandedArgs)).length) + 2 := by omega
  have hw := writeSlot_after ((keptArgs (tokens expandedArgs)).map Slot.str)
    (512 - (keptArgs (tokens expandedArgs)).length) Slot.null
  rw [List.length_map] at hw
  simp only [h514]
  exact hw

/-- C2 (defect in the code): `parseArgs` keeps exactly the tokens that the
claim lists, in order, in the cells `0 .. k-1`, but it stores NULL in cell
`k + 1` (`args[argIndex+1] = NULL`), not in cell `k` right after the last
argument; cell `k` is never written. -/
theorem parseArgs_terminator_misplaced (expandedArgs : CString)
    (hk : (keptArgs (tokens expandedArgs)).length ≤ 512) :
    ∃ args, parseArgs expandedArgs = some args ∧
      args.take (keptArgs (tokens expandedArgs)).length
        = (keptArgs (tokens expandedArgs)).map Slot.str ∧
      args[(keptArgs (tokens expandedArgs)).length]? = some Slot.uninit ∧
      args[(keptArgs (tokens expandedArgs)).length + 1]? = some Slot.null := by
  refine ⟨_, parseArgs_eq expandedArgs hk, ?_, ?_, ?_⟩
  · rw [List.take_append_of_le_length (by simp)]
    rw [List.take_of_length_le (by simp)]
  · rw [List.getElem?_append_right (by simp)]
    simp
  · rw [List.getElem?_append_right (by simp)]
    simp

/-- Witness for C2: `wc < in.txt > out.txt` gives `wc`, an unwritten cell, NULL. -/
theorem parseArgs_terminator_misplaced_witness :
    (keptArgs (tokens "wc < in.txt > out.txt".toList)).length ≤ 512 ∧
    keptArgs (tokens "wc < in.txt > out.txt".toList) = ["wc".toList] ∧
    ∃ args, parseArgs "wc < in.txt > out.txt".toList = some args ∧
      args.take (keptArgs (tokens "wc < in.txt > out.txt".toList)).length
        = (keptArgs (tokens "wc < in.txt > out.txt".toList)).map Slot.str ∧
      args[(keptArgs (tokens "wc < in.txt > out.txt".toList)).length]? = some Slot.uninit ∧
      args[(keptArgs (tokens "wc < in.txt > out.txt".toList)).length + 1]? = some Slot.null :=
  ⟨by decide, by decide,
    parseArgs_terminator_misplaced "wc < in.txt > out.txt".toList (by decide)⟩

/-! ## Dispatch -/

theorem dispatch_launch (env : Env) (fuel : Nat) (sh : Shell) (expandedArgs inputToken : CString)
    (htok : (strtok_r expandedArgs).1 = some inputToken)
    (hcomment : inputToken.head? ≠ some (Char.ofNat 35))
    (hexit : inputToken ≠ "exit".toList) (hcd : inputToken ≠ "cd".toList)
    (hstatus : inputToken ≠ "status".toList) :
    dispatch env fuel sh expandedArgs = thenReap env fuel (launch env fuel sh expandedArgs) := by
  unfold dispatch
  rw [htok]
  simp only []
  rw [if_pos hcomment, if_neg hexit, if_neg hcd, if_neg hstatus]

theorem launchPath_background_iff (foregroundOnly : Int) (line : CString) :
    launchPath foregroundOnly (if (tokens line).getLast? = some "&".toList then 1 else 0)
        = Path.background ↔
      foregroundOnly = 0 ∧ (tokens line).getLast? = some "&".toList := by
  unfold launchPath
  by_cases h1 : foregroundOnly = 0 <;> by_cases h2 : (tokens line).getLast? = some "&".toList
    <;> simp [h1, h2]

theorem launch_eq (env : Env) (fuel : Nat) (sh : Shell) (expandedArgs : CString) :
    launch env fuel sh expandedArgs =
      (match launchPath sh.foregroundOnly
          (if (tokens expandedArgs).getLast? = some "&".toList then 1 else 0) with
        | Path.background => createBackgroundProcess env fuel sh expandedArgs
        | Path.foreground => foregroundProcess env sh expandedArgs) := by
  unfold launch
  rw [checkBackgroundCommand_eq]

/-- The background launch never waits and never touches `lastStatus`. -/
theorem createBackgroundProcess_no_wait (env : Env) (fuel : Nat) (sh : Shell)
    (expandedArgs : CString) (c : Control) (sh1 : Shell)
    (h : createBackgroundProcess env fuel sh expandedArgs = Except.ok (c, sh1)) :
    sh1.lastStatus = sh.lastStatus ∧
      ∃ es, sh1.out = sh.out ++ es ∧ ∀ pid, Event.wait pid ∉ es := by
  unfold createBackgroundProcess at h
  simp only [Shell.emit] at h
  split at h
  · injection h with h
    injection h with h1 h2
    subst h2
    exact ⟨rfl, _, rfl, by simp⟩
  · split at h
    · injection h with h
      injection h with h1 h2
      subst h2
      exact ⟨rfl, _, rfl, by simp⟩
    · split at h
      · cases h
      · injection h with h
        injection h with h1 h2
        subst h2
        exact ⟨rfl, [Event.fork env.forkResult, Event.stdout
          ("\nbackground pid is ".toList ++ intText env.forkResult ++ "\n".toList)],
          by rw [List.append_assoc]; rfl, by simp⟩

theorem foregroundProcess_parent (env : Env) (sh : Shell) (expandedArgs : CString)
    (h1 : env.forkResult ≠ -1) (h0 : env.forkResult ≠ 0) :
    foregroundProcess env sh expandedArgs = Except.ok (Control.prompt,
      { sh with lastStatus := env.childStatus,
                out := sh.out ++ [Event.fork env.forkResult] ++ [Event.wait env.forkResult] }) := by
  unfold foregroundProcess
  simp only [Shell.emit]
  rw [if_neg h1, if_neg h0]

/-- C3: for a line that is neither a comment nor a builtin, `main` takes the
background path (`createBackgroundProcess`, which never waits) if and only if
`foregroundOnly` is 0 and the last space-separated token is exactly `&`; an
`&` elsewhere never selects it, and with `foregroundOnly` set a line ending in
`&` goes down the foreground path. -/
theorem background_iff_last_token (env : Env) (fuel : Nat) (sh : Shell)
    (expandedArgs inputToken : CString)
    (htok : (strtok_r expandedArgs).1 = some inputToken)
    (hcomment : inputToken.head? ≠ some (Char.ofNat 35))
    (hexit : inputToken ≠ "exit".toList) (hcd : inputToken ≠ "cd".toList)
    (hstatus : inputToken ≠ "status".toList) :
    ∃ backgroundCommand path,
      checkBackgroundCommand expandedArgs = some backgroundCommand ∧
      launchPath sh.foregroundOnly backgroundCommand = path ∧
      (path = Path.background ↔
        sh.foregroundOnly = 0 ∧ (tokens expandedArgs).getLast? = some "&".toList) ∧
      dispatch env fuel sh expandedArgs = thenReap env fuel
        (match path with
          | Path.background => createBackgroundProcess env fuel sh expandedArgs
          | Path.foreground => foregroundProcess env sh expandedArgs) ∧
      (∀ c sh1, createBackgroundProcess env fuel sh expandedArgs = Except.ok (c, sh1) →
        sh1.lastStatus = sh.lastStatus ∧
          ∃ es, sh1.out = sh.out ++ es ∧ ∀ pid, Event.wait pid ∉ es) ∧
      ((tokens expandedArgs).getLast? ≠ some "&".toList → path = Path.foreground) ∧
      (sh.foregroundOnly ≠ 0 → path = Path.foreground) := by
  have hiff := launchPath_background_iff sh.foregroundOnly expandedArgs
  refine ⟨_, _, checkBackgroundCommand_eq expandedArgs, rfl, hiff, ?_, ?_, ?_, ?_⟩
  · rw [dispatch_launch env fuel sh expandedArgs inputToken htok hcomment hexit hcd hstatus,
      launch_eq]
  · intro c sh1 h
    exact createBackgroundProcess_no_wait env fuel sh expandedArgs c sh1 h
  · intro hlast
    cases hp : launchPath sh.foregroundOnly
        (if (tokens expandedArgs).getLast? = some "&".toList then 1 else 0) with
    | background => exact absurd (hiff.mp hp).2 hlast
    | foreground => rfl
  · intro hfo
    cases hp : launchPath sh.foregroundOnly
        (if (tokens expandedArgs).getLast? = some "&".toList then 1 else 0) with
    | background => exact absurd (hiff.mp hp).1 hfo
    | foreground => rfl

/-- Witness for C3: the line `sleep 5 &` in the initial state. -/
theorem background_iff_last_token_witness :
    (strtok_r "sleep 5 &".toList).1 = some "sleep".toList ∧
    ∃ backgroundCommand path,
      checkBackgroundCommand "sleep 5 &".toList = some backgroundCommand ∧
      launchPath (initialShell 0).foregroundOnly backgroundCommand = path ∧
      (path = Path.background ↔
        (initialShell 0).foregroundOnly = 0 ∧
          (tokens "sleep 5 &".toList).getLast? = some "&".toList) ∧
      dispatch (sampleEnv 0 ⟨0, 0⟩) 3 (initialShell 0) "sleep 5 &".toList
        = thenReap (sampleEnv 0 ⟨0, 0⟩) 3
        (match path with
          | Path.background =>
            createBackgroundProcess (sampleEnv 0 ⟨0, 0⟩) 3 (initialShell 0) "sleep 5 &".toList
          | Path.foreground =>
            foregroundProcess (sampleEnv 0 ⟨0, 0⟩) (initialShell 0) "sleep 5 &".toList) ∧
      (∀ c sh1, createBackgroundProcess (sampleEnv 0 ⟨0, 0⟩) 3 (initialShell 0)
          "sleep 5 &".toList = Except.ok (c, sh1) →
        sh1.lastStatus = (initialShell 0).lastStatus ∧
          ∃ es, sh1.out = (initialShell 0).out ++ es ∧ ∀ pid, Event.wait pid ∉ es) ∧
      ((tokens "sleep 5 &".toList).getLast? ≠ some "&".toList → path = Path.foreground) ∧
      ((initialShell 0).foregroundOnly ≠ 0 → path = Path.foreground) :=
  ⟨by decide, background_iff_last_token (sampleEnv 0 ⟨0, 0⟩) 3 (initialShell 0)
    "sleep 5 &".toList "sleep".toList (by decide) (by decide) (by decide) (by decide)
    (by decide)⟩

theorem greedyScan_no_dollar (P : CString) :
    ∀ s : CString, dollar ∉ s → greedyScan P s = s
  | [], _ => rfl
  | [c], _ => rfl
  | c :: d :: rest, h => by
    have hc : c ≠ dollar := fun e => h (by rw [e]; exact List.mem_cons_self _ _)
    rw [greedyScan_single P c d rest (fun hcd => hc hcd.1)]
    rw [greedyScan_no_dollar P (d :: rest) (fun hm => h (List.mem_cons_of_mem _ hm))]

theorem strtok_r_spaces (n : Nat) : (strtok_r (List.replicate n space)).1 = none := by
  induction n with
  | zero => rfl
  | succ n ih =>
    rw [List.replicate_succ, strtok_r_cons_space]
    exact ih

theorem dispatch_comment (env : Env) (fuel : Nat) (sh : Shell)
    (expandedArgs inputToken : CString)
    (htok : (strtok_r expandedArgs).1 = some inputToken)
    (hcomment : inputToken.head? = some (Char.ofNat 35)) :
    dispatch env fuel sh expandedArgs = reap env fuel sh := by
  unfold dispatch
  rw [htok]
  simp only []
  rw [if_neg (by simpa using hcomment)]

/-- C9 (defect in the code): a line made of one or more spaces passes the test
`strlen(userInput) > 1`, `strtok_r` finds no token, and `main` hands the NULL
`inputToken` to `strncmp`: the iteration ends in undefined behaviour instead of
being a no-op. A line whose first token starts with `#` is skipped as the claim
says: nothing but the closing reap pass runs. -/
theorem blank_line_null_token (env : Env) (fuel : Nat) (sh : Shell) (n : Nat)
    (hn : n + 1 < 2 ^ 64) :
    iteration env fuel sh (List.replicate (n + 1) space ++ [Char.ofNat 10])
      = Except.error Fault.nullInputToken ∧
    (∀ expandedArgs inputToken, (strtok_r expandedArgs).1 = some inputToken →
      inputToken.head? = some (Char.ofNat 35) →
      dispatch env fuel sh expandedArgs = reap env fuel sh) := by
  refine ⟨?_, fun e t h1 h2 => dispatch_comment env fuel sh e t h1 h2⟩
  have hcs : IsCString (List.replicate (n + 1) space) := by
    refine ⟨?_, by simpa using hn⟩
    intro hmem
    have := List.eq_of_mem_replicate hmem
    exact absurd this (by decide)
  have hnd : dollar ∉ List.replicate (n + 1) space := by
    intro hmem
    have := List.eq_of_mem_replicate hmem
    exact absurd this (by decide)
  have hexp := expandVariables_eq (pidText env.pid) (List.replicate (n + 1) space) hcs
    (by simp [List.replicate_succ])
  rw [greedyScan_no_dollar _ _ hnd] at hexp
  unfold iteration
  simp only []
  rw [if_pos (by simp), List.dropLast_concat, hexp]
  simp only []
  unfold dispatch
  rw [strtok_r_spaces]

/-- Witness for C9: the line of a single space. -/
theorem blank_line_null_token_witness :
    0 + 1 < 2 ^ 64 ∧
    iteration (sampleEnv 0 ⟨0, 0⟩) 3 (initialShell 0)
        (List.replicate (0 + 1) space ++ [Char.ofNat 10])
      = Except.error Fault.nullInputToken :=
  ⟨by decide, (blank_line_null_token (sampleEnv 0 ⟨0, 0⟩) 3 (initialShell 0) 0 (by decide)).1⟩

/-! ## Wait status and the `status` builtin -/

theorem WIFEXITED_exitedStatus (c : Int) : WIFEXITED (exitedStatus c) = true := by
  unfold WIFEXITED WTERMSIG exitedStatus
  rw [beq_iff_eq]
  omega

theorem WEXITSTATUS_exitedStatus (c : Int) (h0 : 0 ≤ c) (h1 : c ≤ 255) :
    WEXITSTATUS (exitedStatus c) = c := by
  unfold WEXITSTATUS exitedStatus
  omega

theorem WTERMSIG_signaledStatus (s : Int) (core : Bool) (h0 : 1 ≤ s) (h1 : s ≤ 127) :
    WTERMSIG (signaledStatus s core) = s := by
  unfold WTERMSIG signaledStatus
  cases core
  · simp only [Bool.false_eq_true, if_false]; omega
  · simp only [if_true]; omega

theorem WIFEXITED_signaledStatus (s : Int) (core : Bool) (h0 : 1 ≤ s) (h1 : s ≤ 127) :
    WIFEXITED (signaledStatus s core) = false := by
  unfold WIFEXITED
  rw [WTERMSIG_signaledStatus s core h0 h1]
  simp only [beq_eq_false_iff_ne, ne_eq]
  omega

theorem statusCommand_exited (sh : Shell) (c : Int) (h0 : 0 ≤ c) (h1 : c ≤ 255)
    (h : sh.lastStatus = exitedStatus c) :
    statusCommand sh = sh.emit [Event.stdout ("exit value ".toList ++ intText c)] := by
  unfold statusCommand
  rw [h, WIFEXITED_exitedStatus, if_pos rfl, WEXITSTATUS_exitedStatus c h0 h1]

theorem statusCommand_signaled (sh : Shell) (s : Int) (core : Bool) (h0 : 1 ≤ s) (h1 : s ≤ 127)
    (h : sh.lastStatus = signaledStatus s core) :
    statusCommand sh
      = sh.emit [Event.stdout ("terminated by signal ".toList ++ intText s)] := by
  unfold statusCommand
  rw [h, WIFEXITED_signaledStatus s core h0 h1, if_neg (by decide),
    WTERMSIG_signaledStatus s core h0 h1]

theorem dispatch_status (env : Env) (fuel : Nat) (sh : Shell) (expandedArgs : CString)
    (htok : (strtok_r expandedArgs).1 = some "status".toList) :
    dispatch env fuel sh expandedArgs = reap env fuel (statusCommand sh) := by
  unfold dispatch
  rw [htok]
  simp only []
  rw [if_pos (by decide), if_neg (by decide), if_neg (by decide), if_pos trivial]

/-- C6: `status` prints `exit value 0` in the initial state; after a foreground
command whose wait status encodes a normal exit with code `c` (0..255) it
prints `exit value c`, so `exit value 2` for code 2; after one whose wait status
encodes termination by signal `s` it prints `terminated by signal s`. The
builtin is what `main` runs on a line whose first token is `status`. -/
theorem status_reports (env : Env) (fuel : Nat) (sh : Shell) (expandedArgs : CString)
    (hfork1 : env.forkResult ≠ -1) (hfork0 : env.forkResult ≠ 0) :
    (∀ listHead, statusCommand (initialShell listHead)
      = (initialShell listHead).emit [Event.stdout "exit value 0".toList]) ∧
    (∃ sh1, foregroundProcess env sh expandedArgs = Except.ok (Control.prompt, sh1) ∧
      sh1.lastStatus = env.childStatus ∧
      (∀ c : Int, 0 ≤ c → c ≤ 255 → env.childStatus = exitedStatus c →
        statusCommand sh1 = sh1.emit [Event.stdout ("exit value ".toList ++ intText c)]) ∧
      (env.childStatus = exitedStatus 2 →
        statusCommand sh1 = sh1.emit [Event.stdout "exit value 2".toList]) ∧
      (∀ (s : Int) (core : Bool), 1 ≤ s → s ≤ 127 → env.childStatus = signaledStatus s core →
        statusCommand sh1
          = sh1.emit [Event.stdout ("terminated by signal ".toList ++ intText s)])) ∧
    (∀ line sh2, (strtok_r line).1 = some "status".toList →
      dispatch env fuel sh2 line = reap env fuel (statusCommand sh2)) := by
  refine ⟨fun listHead => ?_, ⟨_, foregroundProcess_parent env sh expandedArgs hfork1 hfork0,
    rfl, ?_, ?_, ?_⟩, fun line sh2 h => dispatch_status env fuel sh2 line h⟩
  · exact statusCommand_exited (initialShell listHead) 0 (by decide) (by decide) rfl
  · intro c h0 h1 h
    exact statusCommand_exited _ c h0 h1 h
  · intro h
    exact statusCommand_exited _ 2 (by decide) (by decide) h
  · intro s core h0 h1 h
    exact statusCommand_signaled _ s core h0 h1 h

/-- Witness for C6: a foreground child that exits with code 2 (wait status 512). -/
theorem status_reports_witness :
    (sampleEnv 512 ⟨0, 0⟩).forkResult ≠ -1 ∧ (sampleEnv 512 ⟨0, 0⟩).forkResult ≠ 0 ∧
    (sampleEnv 512 ⟨0, 0⟩).childStatus = exitedStatus 2 ∧
    ∃ sh1, foregroundProcess (sampleEnv 512 ⟨0, 0⟩) (initialShell 0) "false".toList
        = Except.ok (Control.prompt, sh1) ∧
      statusCommand sh1 = sh1.emit [Event.stdout "exit value 2".toList] := by
  obtain ⟨_, ⟨sh1, h1, _, _, h2, _⟩, _⟩ := status_reports (sampleEnv 512 ⟨0, 0⟩) 3
    (initialShell 0) "false".toList (by decide) (by decide)
  exact ⟨by decide, by decide, by decide, sh1, h1, h2 (by decide)⟩

/-! ## The list of background processes -/

theorem Heap.write_same (h : Heap) (a : Nat) (v : Option backgroundProcess) :
    (h.write a v) a = v := by
  unfold Heap.write
  rw [if_pos rfl]

theorem Heap.write_other (h : Heap) (a x : Nat) (v : Option backgroundProcess) (hx : x ≠ a) :
    (h.write a v) x = h x := by
  unfold Heap.write
  rw [if_neg hx]

/-- A heap that agrees on the nodes of a list holds the same list. -/
theorem Linked_frame (h h1 : Heap) :
    ∀ (cells : List (Nat × Int)) (prev : Option Nat),
      (∀ x ∈ cells.map Prod.fst, h1 x = h x) → Linked h prev cells → Linked h1 prev cells
  | [], _, _, _ => trivial
  | c :: rest, prev, hagree, hl => by
    obtain ⟨hc, hrest⟩ := hl
    refine ⟨?_, Linked_frame h h1 rest (some c.1) (fun x hx => hagree x ?_) hrest⟩
    · rw [hagree c.1 (by simp), hc]
    · simp only [List.map_cons, List.mem_cons]
      exact Or.inr hx

/-- The two nodes around a position of the list. -/
theorem Linked_at (h : Heap) :
    ∀ (pre : List (Nat × Int)) (prev : Option Nat) (p a : Nat × Int) (rest : List (Nat × Int)),
      Linked h prev (pre ++ p :: a :: rest) →
      (∃ pprev, h p.1 = some ⟨p.2, some a.1, pprev⟩) ∧
        h a.1 = some ⟨a.2, firstAddr rest, some p.1⟩
  | [], prev, p, a, rest, hl => by
    obtain ⟨hp, ha, _⟩ := hl
    exact ⟨⟨prev, hp⟩, ha⟩
  | c :: pre, prev, p, a, rest, hl => by
    obtain ⟨_, hrest⟩ := hl
    exact Linked_at h pre (some c.1) p a rest hrest

/-- The last node before a position of the list points to the rest. -/
theorem Linked_last (h : Heap) :
    ∀ (pre : List (Nat × Int)) (prev : Option Nat) (p : Nat × Int) (rest : List (Nat × Int)),
      Linked h prev (pre ++ p :: rest) →
      ∃ pprev, h p.1 = some ⟨p.2, firstAddr rest, pprev⟩
  | [], prev, _, _, hl => ⟨prev, hl.1⟩
  | c :: pre, _, p, rest, hl => Linked_last h pre (some c.1) p rest hl.2

theorem firstAddr_append_cons (pre : List (Nat × Int)) (p : Nat × Int)
    (r1 r2 : List (Nat × Int)) :
    firstAddr (pre ++ p :: r1) = firstAddr (pre ++ p :: r2) := by
  cases pre <;> rfl

theorem removeBackgroundProcess_base (h : Heap) (prev : Option Nat) (p a : Nat × Int)
    (rest : List (Nat × Int)) (hl : Linked h prev (p :: a :: rest))
    (hnd : ((p :: a :: rest).map Prod.fst).Nodup) :
    ∃ h1, removeBackgroundProcess h a.1 = some h1 ∧
      Linked h1 prev (p :: rest) ∧ h1 a.1 = none ∧
      (∀ x, x ∉ (p :: a :: rest).map Prod.fst → h1 x = h x) := by
  obtain ⟨hp, ha, hrest⟩ := hl
  simp only [List.map_cons, List.nodup_cons, List.mem_cons, not_or] at hnd
  obtain ⟨⟨hpa, hpr⟩, har, hrnd⟩ := hnd
  cases rest with
  | nil =>
    refine ⟨(h.write p.1 (some ⟨p.2, none, prev⟩)).write a.1 none, ?_, ?_, ?_, ?_⟩
    · unfold removeBackgroundProcess
      simp only [ha, hp, Option.some_bind, firstAddr, List.head?_nil, Option.map_none']
    · refine ⟨?_, trivial⟩
      rw [Heap.write_other _ _ _ _ hpa, Heap.write_same]
      rfl
    · exact Heap.write_same _ _ _
    · intro x hx
      simp only [List.map_cons, List.map_nil, List.mem_cons, List.mem_singleton, not_or] at hx
      rw [Heap.write_other _ _ _ _ hx.2.1, Heap.write_other _ _ _ _ hx.1]
  | cons c rest1 =>
    obtain ⟨hc, hrest1⟩ := hrest
    simp only [List.map_cons, List.mem_cons, not_or, List.nodup_cons] at hpr har hrnd
    have hcp : c.1 ≠ p.1 := fun e => hpr.1 e.symm
    have hca : c.1 ≠ a.1 := fun e => har.1 e.symm
    refine ⟨((h.write p.1 (some ⟨p.2, some c.1, prev⟩)).write c.1
      (some ⟨c.2, firstAddr rest1, some p.1⟩)).write a.1 none, ?_, ?_, ?_, ?_⟩
    · unfold removeBackgroundProcess
      simp only [ha, hp, Option.some_bind, firstAddr, List.head?_cons, Option.map_some',
        Heap.write_other _ _ _ _ hcp, hc]
    · refine ⟨?_, ?_, ?_⟩
      · rw [Heap.write_other _ _ _ _ hpa, Heap.write_other _ _ _ _ (Ne.symm hcp),
          Heap.write_same]
        rfl
      · rw [Heap.write_other _ _ _ _ hca, Heap.write_same]
      · refine Linked_frame h _ rest1 (some c.1) (fun x hx => ?_) hrest1
        have hxa : x ≠ a.1 := fun e => har.2 (e ▸ hx)
        have hxc : x ≠ c.1 := fun e => hrnd.1 (e ▸ hx)
        have hxp : x ≠ p.1 := fun e => hpr.2 (e ▸ hx)
        rw [Heap.write_other _ _ _ _ hxa, Heap.write_other _ _ _ _ hxc,
          Heap.write_other _ _ _ _ hxp]
    · exact Heap.write_same _ _ _
    · intro x hx
      simp only [List.map_cons, List.mem_cons, not_or] at hx
      rw [Heap.write_other _ _ _ _ hx.2.1, Heap.write_other _ _ _ _ hx.2.2.1,
        Heap.write_other _ _ _ _ hx.1]

/-- `removeBackgroundProcess` on a node of a well-formed list unlinks exactly
that node: the list without it is well formed, the node is freed, and no node
outside the neighbourhood changes. -/
theorem removeBackgroundProcess_spec (h : Heap) :
    ∀ (pre : List (Nat × Int)) (prev : Option Nat) (p a : Nat × Int) (rest : List (Nat × Int)),
      Linked h prev (pre ++ p :: a :: rest) →
      ((pre ++ p :: a :: rest).map Prod.fst).Nodup →
      ∃ h1, removeBackgroundProcess h a.1 = some h1 ∧
        Linked h1 prev (pre ++ p :: rest) ∧ h1 a.1 = none ∧
        (∀ x, x ∉ (p :: a :: rest).map Prod.fst → h1 x = h x)
  | [], prev, p, a, rest, hl, hnd => removeBackgroundProcess_base h prev p a rest hl hnd
  | c :: pre, prev, p, a, rest, hl, hnd => by
    obtain ⟨hc, hrest⟩ := hl
    simp only [List.cons_append, List.map_cons, List.nodup_cons] at hnd
    obtain ⟨hcn, hnd1⟩ := hnd
    obtain ⟨h1, hrem, hl1, hfree, hframe⟩ :=
      removeBackgroundProcess_spec h pre (some c.1) p a rest hrest hnd1
    refine ⟨h1, hrem, ⟨?_, hl1⟩, hfree, hframe⟩
    have hcout : c.1 ∉ (p :: a :: rest).map Prod.fst := by
      intro hmem
      apply hcn
      rw [List.map_append]
      exact List.mem_append_right _ hmem
    rw [hframe c.1 hcout, hc]
    have hfa := firstAddr_append_cons pre p rest (a :: rest)
    show some (backgroundProcess.mk c.2 (firstAddr (pre ++ p :: a :: rest)) prev)
      = some (backgroundProcess.mk c.2 (firstAddr (pre ++ p :: rest)) prev)
    rw [hfa]

/-- The three statements after a notice unlink the polled node and move on to
its successor. -/
theorem unlinkFocus_spec (h : Heap) (pre : List (Nat × Int)) (prev : Option Nat)
    (p a : Nat × Int) (rest : List (Nat × Int))
    (hl : Linked h prev (pre ++ p :: a :: rest))
    (hnd : ((pre ++ p :: a :: rest).map Prod.fst).Nodup) :
    ∃ h1, unlinkFocus h ⟨a.2, firstAddr rest, some p.1⟩ = some (h1, firstAddr rest) ∧
      Linked h1 prev (pre ++ p :: rest) ∧ h1 a.1 = none ∧
      (∀ x, x ∉ (p :: a :: rest).map Prod.fst → h1 x = h x) := by
  obtain ⟨⟨pprev, hp⟩, _⟩ := Linked_at h pre prev p a rest hl
  obtain ⟨h1, hrem, hl1, hfree, hframe⟩ := removeBackgroundProcess_spec h pre prev p a rest hl hnd
  obtain ⟨pprev1, hp1⟩ := Linked_last h1 pre prev p rest hl1
  refine ⟨h1, ?_, hl1, hfree, hframe⟩
  unfold unlinkFocus
  simp only [Option.some_bind, hp, hrem, hp1]

theorem nodup_remove (pre : List (Nat × Int)) (p a : Nat × Int) (rest : List (Nat × Int))
    (hnd : ((pre ++ p :: a :: rest).map Prod.fst).Nodup) :
    ((pre ++ p :: rest).map Prod.fst).Nodup := by
  refine List.Nodup.sublist ?_ hnd
  refine List.Sublist.map _ ?_
  refine List.Sublist.append (List.Sublist.refl _) ?_
  exact List.Sublist.cons₂ _ (List.sublist_cons_self _ _)

/-- The loop of the reap pass on a well-formed list, when every job is
reported unchanged, exited or signalled: it returns, polls every job once in
order, prints one notice per finished job, and leaves the jobs reported
unchanged, in order, in a well-formed list. -/
theorem cleanupLoop_spec (waitpid : Nat → Int → WaitResult) :
    ∀ (rem pre : List (Nat × Int)) (prev : Option Nat) (p : Nat × Int) (fuel : Nat) (h : Heap)
      (calls : Nat) (out : List Event),
      Linked h prev (pre ++ p :: rem) → ((pre ++ p :: rem).map Prod.fst).Nodup →
      AllReported waitpid calls rem → rem.length + 1 ≤ fuel →
      ∃ h1, cleanupLoop waitpid fuel h (firstAddr rem) calls out
          = some (h1, calls + rem.length, out ++ reapEvents waitpid calls rem) ∧
        Linked h1 prev (pre ++ p :: survivors waitpid calls rem) ∧
        (∀ x, x ∉ (pre ++ p :: rem).map Prod.fst → h1 x = h x) := by
  intro rem
  induction rem with
  | nil =>
    intro pre prev p fuel h calls out hl _ _ hf
    obtain ⟨f, rfl⟩ : ∃ f, fuel = f + 1 := ⟨fuel - 1, by omega⟩
    refine ⟨h, ?_, hl, fun _ _ => rfl⟩
    simp [cleanupLoop, firstAddr, reapEvents]
  | cons a rest ih =>
    intro pre prev p fuel h calls out hl hnd hrep hf
    obtain ⟨f, rfl⟩ : ∃ f, fuel = f + 1 := ⟨fuel - 1, by omega⟩
    simp only [List.length_cons] at hf
    obtain ⟨_, ha⟩ := Linked_at h pre prev p a rest hl
    obtain ⟨hrep1, hreprest⟩ := hrep
    have hfirst : firstAddr (a :: rest) = some a.1 := rfl
    rw [hfirst, cleanupLoop]
    simp only [ha, Option.some_bind]
    by_cases h0 : (waitpid calls a.2).waitVal = 0
    · rw [if_pos h0]
      have hl' : Linked h prev ((pre ++ [p]) ++ a :: rest) := by
        rw [List.append_assoc]; exact hl
      have hnd' : (((pre ++ [p]) ++ a :: rest).map Prod.fst).Nodup := by
        rw [List.append_assoc]; exact hnd
      obtain ⟨h1, hrun, hl1, hframe⟩ :=
        ih (pre ++ [p]) prev a f h (calls + 1) (out ++ [Event.poll a.2]) hl' hnd' hreprest
          (by omega)
      refine ⟨h1, ?_, ?_, ?_⟩
      · rw [hrun, reapEvents, if_pos h0]
        simp only [List.length_cons, List.append_assoc, List.singleton_append]
        congr 3
        omega
      · rw [survivors, if_pos h0]
        rw [List.append_assoc] at hl1
        exact hl1
      · intro x hx
        apply hframe
        rw [List.append_assoc]
        exact hx
    · rw [if_neg h0]
      obtain ⟨h1, hun, hl1, _, hframe1⟩ := unlinkFocus_spec h pre prev p a rest hl hnd
      have hnd1 := nodup_remove pre p a rest hnd
      have hout : ∀ x, x ∉ (pre ++ p :: a :: rest).map Prod.fst →
          x ∉ (p :: a :: rest).map Prod.fst ∧ x ∉ (pre ++ p :: rest).map Prod.fst := by
        intro x hx
        simp only [List.map_append, List.map_cons, List.mem_append, List.mem_cons, not_or] at hx ⊢
        tauto
      by_cases hex : WIFEXITED (waitpid calls a.2).status = true
      · rw [if_pos hex]
        simp only [hun, Option.some_bind]
        obtain ⟨h2, hrun, hl2, hframe2⟩ :=
          ih pre prev p f h1 (calls + 1)
            (out ++ [Event.poll a.2] ++
              [Event.stdout (doneExitText a.2 (waitpid calls a.2).status)])
            hl1 hnd1 hreprest (by omega)
        refine ⟨h2, ?_, ?_, ?_⟩
        · rw [hrun, reapEvents, if_neg h0, noticeText, if_pos hex, doneExitText]
          simp only [List.length_cons, List.append_assoc, List.singleton_append,
            List.cons_append, List.nil_append]
          congr 3
          omega
        · rw [survivors, if_neg h0]
          exact hl2
        · intro x hx
          rw [hframe2 x (hout x hx).2, hframe1 x (hout x hx).1]
      · rw [if_neg hex]
        have hsig : WIFSIGNALED (waitpid calls a.2).status = true := by
          rcases hrep1 with h | h | h
          · exact absurd h h0
          · exact absurd h hex
          · exact h
        rw [if_pos hsig]
        simp only [hun, Option.some_bind]
        obtain ⟨h2, hrun, hl2, hframe2⟩ :=
          ih pre prev p f h1 (calls + 1)
            (out ++ [Event.poll a.2] ++
              [Event.stdout (doneSignalText a.2 (waitpid calls a.2).status)])
            hl1 hnd1 hreprest (by omega)
        refine ⟨h2, ?_, ?_, ?_⟩
        · rw [hrun, reapEvents, if_neg h0, noticeText, if_neg hex, doneSignalText]
          simp only [List.length_cons, List.append_assoc, List.singleton_append,
            List.cons_append, List.nil_append]
          congr 3
          omega
        · rw [survivors, if_neg h0]
          exact hl2
        · intro x hx
          rw [hframe2 x (hout x hx).2, hframe1 x (hout x hx).1]

theorem survivors_sublist (waitpid : Nat → Int → WaitResult) :
    ∀ (jobs : List (Nat × Int)) (calls : Nat), (survivors waitpid calls jobs).Sublist jobs
  | [], _ => List.Sublist.refl _
  | c :: rest, calls => by
    rw [survivors]
    split
    · exact List.Sublist.cons₂ _ (survivors_sublist waitpid rest (calls + 1))
    · exact List.Sublist.cons _ (survivors_sublist waitpid rest (calls + 1))

theorem reapEvents_polls (waitpid : Nat → Int → WaitResult) :
    ∀ (jobs : List (Nat × Int)) (calls : Nat),
      (reapEvents waitpid calls jobs).filterMap polledPid = jobs.map Prod.snd
  | [], _ => rfl
  | c :: rest, calls => by
    rw [reapEvents]
    split
    · simp [polledPid, reapEvents_polls waitpid rest (calls + 1)]
    · simp [polledPid, reapEvents_polls waitpid rest (calls + 1)]

theorem reapEvents_notices (waitpid : Nat → Int → WaitResult) :
    ∀ (jobs : List (Nat × Int)) (calls : Nat),
      ((reapEvents waitpid calls jobs).filter isNotice).length
        + (survivors waitpid calls jobs).length = jobs.length
  | [], _ => rfl
  | c :: rest, calls => by
    have ih := reapEvents_notices waitpid rest (calls + 1)
    rw [reapEvents, survivors]
    split
    · simp only [List.filter_cons, isNotice, Bool.false_eq_true, if_false, List.length_cons]
      omega
    · simp only [List.filter_cons, isNotice, Bool.false_eq_true, if_false, if_true,
        List.length_cons]
      omega

theorem survivors_all_finished (waitpid : Nat → Int → WaitResult) :
    ∀ (jobs : List (Nat × Int)) (calls : Nat),
      (∀ i (hi : i < jobs.length), (waitpid (calls + i) (jobs.get ⟨i, hi⟩).2).waitVal ≠ 0) →
      survivors waitpid calls jobs = []
  | [], _, _ => rfl
  | c :: rest, calls, hall => by
    have h0 := hall 0 (by simp)
    simp only [Nat.add_zero, List.get_eq_getElem, List.getElem_cons_zero] at h0
    rw [survivors, if_neg h0]
    apply survivors_all_finished waitpid rest (calls + 1)
    intro i hi
    have := hall (i + 1) (by simpa using hi)
    simp only [List.get_eq_getElem, List.getElem_cons_succ] at this ⊢
    rw [Nat.add_assoc, Nat.add_comm 1 i]
    exact this

theorem survivors_all_unchanged (waitpid : Nat → Int → WaitResult)
    (hall : ∀ k pid, (waitpid k pid).waitVal = 0) :
    ∀ (jobs : List (Nat × Int)) (calls : Nat),
      survivors waitpid calls jobs = jobs ∧
      reapEvents waitpid calls jobs = jobs.map (fun c => Event.poll c.2) ∧
      AllReported waitpid calls jobs
  | [], _ => ⟨rfl, rfl, trivial⟩
  | c :: rest, calls => by
    obtain ⟨h1, h2, h3⟩ := survivors_all_unchanged waitpid hall rest (calls + 1)
    refine ⟨?_, ?_, Or.inl (hall _ _), h3⟩
    · rw [survivors, if_pos (hall _ _), h1]
    · rw [reapEvents, if_pos (hall _ _), h2]
      rfl

theorem listPids_spec (h : Heap) :
    ∀ (cells : List (Nat × Int)) (prev : Option Nat) (fuel : Nat),
      Linked h prev cells → cells.length + 1 ≤ fuel →
      listPids fuel h (firstAddr cells) = some (cells.map Prod.snd)
  | [], _, fuel, _, hf => by
    obtain ⟨f, rfl⟩ : ∃ f, fuel = f + 1 := ⟨fuel - 1, by omega⟩
    rfl
  | c :: rest, _, fuel, hl, hf => by
    obtain ⟨f, rfl⟩ : ∃ f, fuel = f + 1 := ⟨fuel - 1, by omega⟩
    simp only [List.length_cons] at hf
    have hfirst : firstAddr (c :: rest) = some c.1 := rfl
    rw [hfirst, listPids, hl.1, Option.some_bind]
    simp only []
    rw [listPids_spec h rest (some c.1) f hl.2 (by omega)]
    rfl

theorem killLoop_spec (h : Heap) :
    ∀ (cells : List (Nat × Int)) (prev : Option Nat) (fuel : Nat) (out : List Event),
      Linked h prev cells → cells.length + 1 ≤ fuel →
      killLoop fuel h (firstAddr cells) out = some (out ++ cells.map fun c => Event.kill c.2)
  | [], _, fuel, out, _, hf => by
    obtain ⟨f, rfl⟩ : ∃ f, fuel = f + 1 := ⟨fuel - 1, by omega⟩
    simp [killLoop, firstAddr]
  | c :: rest, _, fuel, out, hl, hf => by
    obtain ⟨f, rfl⟩ : ∃ f, fuel = f + 1 := ⟨fuel - 1, by omega⟩
    simp only [List.length_cons] at hf
    have hfirst : firstAddr (c :: rest) = some c.1 := rfl
    rw [hfirst, killLoop, hl.1, Option.some_bind]
    simp only []
    rw [killLoop_spec h rest (some c.1) f _ hl.2 (by omega)]
    simp

theorem jobTable_spec (h : Heap) (listHead : Nat) (jobs : List (Nat × Int)) (fuel : Nat)
    (ht : IsTable h listHead jobs) (hf : jobs.length + 1 ≤ fuel) :
    jobTable fuel h listHead = some (jobs.map Prod.snd) := by
  obtain ⟨⟨headPid, hhead, hl⟩, _⟩ := ht
  unfold jobTable
  rw [hhead, Option.some_bind]
  exact listPids_spec h jobs (some listHead) fuel hl hf

/-- One reap pass over a job table, when every job is reported unchanged,
exited or signalled. -/
theorem cleanupBackgroundProcesses_spec (waitpid : Nat → Int → WaitResult) (fuel : Nat)
    (h : Heap) (listHead : Nat) (jobs : List (Nat × Int)) (calls : Nat) (out : List Event)
    (ht : IsTable h listHead jobs) (hrep : AllReported waitpid calls jobs)
    (hf : jobs.length + 1 ≤ fuel) :
    ∃ h1, cleanupBackgroundProcesses waitpid fuel h listHead calls out
        = some (h1, calls + jobs.length, out ++ reapEvents waitpid calls jobs) ∧
      IsTable h1 listHead (survivors waitpid calls jobs) := by
  obtain ⟨⟨headPid, hl⟩, hnd⟩ := ht
  obtain ⟨h1, hrun, hl1, _⟩ :=
    cleanupLoop_spec waitpid jobs [] none (listHead, headPid) fuel h calls out hl hnd hrep hf
  refine ⟨h1, ?_, ⟨headPid, hl1⟩, ?_⟩
  · unfold cleanupBackgroundProcesses
    rw [hl.1, Option.some_bind]
    exact hrun
  · refine List.Nodup.sublist ?_ hnd
    exact List.Sublist.cons₂ _ (List.Sublist.map _ (survivors_sublist waitpid jobs calls))

/-- The texts written by a reap pass are, in table order, one completion
notice for each job not reported unchanged, in the wording of the
specification. -/
theorem reapEvents_notice_texts (waitpid : Nat → Int → WaitResult) :
    ∀ (jobs : List (Nat × Int)) (calls : Nat),
      (reapEvents waitpid calls jobs).filter isNotice
        = (finishedJobs waitpid calls jobs).map fun x =>
          Event.stdout (if WIFEXITED x.2.status then
            "\nbackground pid ".toList ++ intText x.1 ++ " is done: exit value ".toList
              ++ intText x.2.status ++ "\n".toList
          else
            "\nbackground pid ".toList ++ intText x.1
              ++ " is done: terminated by signal ".toList ++ intText x.2.status
              ++ "\n".toList)
  | [], _ => rfl
  | c :: rest, calls => by
    have ih := reapEvents_notice_texts waitpid rest (calls + 1)
    rw [reapEvents, finishedJobs]
    by_cases h0 : (waitpid calls c.2).waitVal = 0
    · rw [if_pos h0, if_pos h0, List.filter_cons]
      simp only [isNotice, Bool.false_eq_true, if_false]
      exact ih
    · rw [if_neg h0, if_neg h0, List.filter_cons]
      simp only [isNotice, Bool.false_eq_true, if_false]
      rw [List.filter_cons]
      simp only [isNotice, if_true, List.map_cons]
      rw [ih]
      rfl

theorem finishedJobs_length (waitpid : Nat → Int → WaitResult) :
    ∀ (jobs : List (Nat × Int)) (calls : Nat),
      (finishedJobs waitpid calls jobs).length + (survivors waitpid calls jobs).length
        = jobs.length
  | [], _ => rfl
  | c :: rest, calls => by
    have ih := finishedJobs_length waitpid rest (calls + 1)
    rw [finishedJobs, survivors]
    split
    · simp only [List.length_cons]
      omega
    · simp only [List.length_cons]
      omega

/-- C4: on every job table, when each job is reported unchanged, exited or
signal-terminated, one reap pass returns, polls each registered job exactly once
in table order, prints exactly one completion notice per terminated job and
leaves exactly the jobs reported unchanged, in their original order; if all
jobs are reported terminated, the table is empty afterwards and one notice per
job was printed. The notices are, in table order, the text
`background pid N is done: exit value N` or
`background pid N is done: terminated by signal N` for each terminated job,
with that job's process id. -/
theorem reap_pass (waitpid : Nat → Int → WaitResult) (fuel : Nat) (h : Heap) (listHead : Nat)
    (jobs : List (Nat × Int)) (calls : Nat) (out : List Event)
    (ht : IsTable h listHead jobs) (hrep : AllReported waitpid calls jobs)
    (hf : jobs.length + 1 ≤ fuel) :
    ∃ h1, cleanupBackgroundProcesses waitpid fuel h listHead calls out
        = some (h1, calls + jobs.length, out ++ reapEvents waitpid calls jobs) ∧
      IsTable h1 listHead (survivors waitpid calls jobs) ∧
      jobTable fuel h1 listHead = some ((survivors waitpid calls jobs).map Prod.snd) ∧
      (reapEvents waitpid calls jobs).filterMap polledPid = jobs.map Prod.snd ∧
      ((reapEvents waitpid calls jobs).filter isNotice).length
        + (survivors waitpid calls jobs).length = jobs.length ∧
      (survivors waitpid calls jobs).Sublist jobs ∧
      ((∀ i (hi : i < jobs.length),
          (waitpid (calls + i) (jobs.get ⟨i, hi⟩).2).waitVal ≠ 0) →
        jobTable fuel h1 listHead = some [] ∧
        ((reapEvents waitpid calls jobs).filter isNotice).length = jobs.length) ∧
      (reapEvents waitpid calls jobs).filter isNotice
        = (finishedJobs waitpid calls jobs).map (fun x =>
          Event.stdout (if WIFEXITED x.2.status then
            "\nbackground pid ".toList ++ intText x.1 ++ " is done: exit value ".toList
              ++ intText x.2.status ++ "\n".toList
          else
            "\nbackground pid ".toList ++ intText x.1
              ++ " is done: terminated by signal ".toList ++ intText x.2.status
              ++ "\n".toList)) ∧
      (finishedJobs waitpid calls jobs).length + (survivors waitpid calls jobs).length
        = jobs.length := by
  obtain ⟨h1, hrun, ht1⟩ :=
    cleanupBackgroundProcesses_spec waitpid fuel h listHead jobs calls out ht hrep hf
  have hsub := survivors_sublist waitpid jobs calls
  have hlen : (survivors waitpid calls jobs).length + 1 ≤ fuel := by
    have := hsub.length_le
    omega
  have htable := jobTable_spec h1 listHead _ fuel ht1 hlen
  have hnot := reapEvents_notices waitpid jobs calls
  refine ⟨h1, hrun, ht1, htable, reapEvents_polls waitpid jobs calls, hnot, hsub, ?_,
    reapEvents_notice_texts waitpid jobs calls, finishedJobs_length waitpid jobs calls⟩
  intro hall
  have hnil := survivors_all_finished waitpid jobs calls hall
  rw [hnil] at htable hnot
  exact ⟨htable, by simpa using hnot⟩

/-- Witness for C4: processes 11, 12, 13, of which 11 exited, 12 is unchanged
and 13 was killed; process 12 alone stays in the table. -/
theorem reap_pass_witness :
    IsTable exampleHeap 0 [(1, 11), (2, 12), (3, 13)] ∧
    AllReported exampleWaitpid 0 [(1, 11), (2, 12), (3, 13)] ∧
    survivors exampleWaitpid 0 [(1, 11), (2, 12), (3, 13)] = [(2, 12)] ∧
    reapEvents exampleWaitpid 0 [(1, 11), (2, 12), (3, 13)]
      = [Event.poll 11, Event.stdout "\nbackground pid 11 is done: exit value 256\n".toList,
          Event.poll 12, Event.poll 13,
          Event.stdout "\nbackground pid 13 is done: terminated by signal 9\n".toList] ∧
    ∃ h1, cleanupBackgroundProcesses exampleWaitpid 4 exampleHeap 0 0 []
        = some (h1, 0 + [((1 : Nat), (11 : Int)), (2, 12), (3, 13)].length,
            [] ++ reapEvents exampleWaitpid 0 [(1, 11), (2, 12), (3, 13)]) ∧
      jobTable 4 h1 0
        = some ((survivors exampleWaitpid 0 [(1, 11), (2, 12), (3, 13)]).map Prod.snd) := by
  have ht : IsTable exampleHeap 0 [(1, 11), (2, 12), (3, 13)] :=
    ⟨⟨-1, rfl, rfl, rfl, rfl, trivial⟩, by decide⟩
  have hrep : AllReported exampleWaitpid 0 [(1, 11), (2, 12), (3, 13)] :=
    ⟨Or.inr (Or.inl rfl), Or.inl rfl, Or.inr (Or.inr rfl), trivial⟩
  obtain ⟨h1, hrun, _, htable, _⟩ :=
    reap_pass exampleWaitpid 4 exampleHeap 0 [(1, 11), (2, 12), (3, 13)] 0 [] ht hrep
      (by decide)
  exact ⟨ht, hrep, by decide, by decide, h1, hrun, htable⟩

theorem exitedStatus_eq (c : Int) (h0 : 0 ≤ c) (h1 : c ≤ 255) : exitedStatus c = c * 256 := by
  unfold exitedStatus
  omega

/-- C7 (defect in the code): both completion notices print the raw wait status
word. For a job that exited with code `c` the notice reads
`background pid N is done: exit value 256*c`, not `exit value c`; for a job
killed by signal `s` with a core dump it reads `terminated by signal s+128`. -/
theorem notice_prints_raw_status (waitpid : Nat → Int → WaitResult) (fuel : Nat) (h : Heap)
    (listHead a : Nat) (pid : Int) (calls : Nat) (out : List Event)
    (ht : IsTable h listHead [(a, pid)]) (hpid : pid ≠ 0) (hf : 2 ≤ fuel) :
    (∀ c : Int, 0 ≤ c → c ≤ 255 → waitpid calls pid = ⟨pid, exitedStatus c⟩ →
      ∃ h1, cleanupBackgroundProcesses waitpid fuel h listHead calls out
        = some (h1, calls + 1, out ++ [Event.poll pid,
            Event.stdout ("\nbackground pid ".toList ++ intText pid
              ++ " is done: exit value ".toList ++ intText (c * 256) ++ "\n".toList)])) ∧
    (∀ s : Int, 1 ≤ s → s ≤ 126 → waitpid calls pid = ⟨pid, signaledStatus s true⟩ →
      ∃ h1, cleanupBackgroundProcesses waitpid fuel h listHead calls out
        = some (h1, calls + 1, out ++ [Event.poll pid,
            Event.stdout ("\nbackground pid ".toList ++ intText pid
              ++ " is done: terminated by signal ".toList ++ intText (s + 128)
              ++ "\n".toList)])) := by
  constructor
  · intro c hc0 hc1 hw
    have hex : WIFEXITED (waitpid calls pid).status = true := by
      rw [hw]; exact WIFEXITED_exitedStatus c
    obtain ⟨h1, hrun, _⟩ :=
      cleanupBackgroundProcesses_spec waitpid fuel h listHead [(a, pid)] calls out ht
        ⟨Or.inr (Or.inl hex), trivial⟩ (by simpa using hf)
    refine ⟨h1, ?_⟩
    rw [hrun]
    have hwv : ¬ (waitpid calls pid).waitVal = 0 := by rw [hw]; exact hpid
    simp only [reapEvents, if_neg hwv, noticeText, hex, if_true, List.length_singleton]
    rw [hw, exitedStatus_eq c hc0 hc1]
  · intro s hs0 hs1 hw
    have hst : signaledStatus s true = s + 128 := by simp [signaledStatus]
    have hex : ¬ (WIFEXITED (waitpid calls pid).status = true) := by
      rw [hw, WIFEXITED_signaledStatus s true hs0 (by omega)]
      decide
    have hsig : WIFSIGNALED (waitpid calls pid).status = true := by
      rw [hw, hst]
      unfold WIFSIGNALED
      simp only [decide_eq_true_eq]
      have hv : (s + 128) % 128 + 1 = s + 1 := by omega
      rw [hv, if_neg (by omega)]
      omega
    obtain ⟨h1, hrun, _⟩ :=
      cleanupBackgroundProcesses_spec waitpid fuel h listHead [(a, pid)] calls out ht
        ⟨Or.inr (Or.inr hsig), trivial⟩ (by simpa using hf)
    refine ⟨h1, ?_⟩
    rw [hrun]
    have hwv : ¬ (waitpid calls pid).waitVal = 0 := by rw [hw]; exact hpid
    simp only [reapEvents, if_neg hwv, noticeText, hex, if_false, List.length_singleton]
    rw [hw, hst]
    rfl

/-- Witness for C7: process 1234 exited with code 1, and the notice says
`exit value 256`. -/
theorem notice_prints_raw_status_witness :
    IsTable (fun a => if a = 0 then some ⟨-1, some 1, none⟩
      else if a = 1 then some ⟨1234, none, some 0⟩ else none) 0 [(1, 1234)] ∧
    ∃ h1, cleanupBackgroundProcesses (fun _ _ => ⟨1234, exitedStatus 1⟩) 2
        (fun a => if a = 0 then some ⟨-1, some 1, none⟩
          else if a = 1 then some ⟨1234, none, some 0⟩ else none) 0 0 []
      = some (h1, 0 + 1, [] ++ [Event.poll 1234,
          Event.stdout ("\nbackground pid ".toList ++ intText 1234
            ++ " is done: exit value ".toList ++ intText (1 * 256) ++ "\n".toList)]) ∧
      intText (1 * 256) = "256".toList :=
  have ht : IsTable (fun a => if a = 0 then some ⟨-1, some 1, none⟩
      else if a = 1 then some ⟨1234, none, some 0⟩ else none) 0 [(1, 1234)] :=
    ⟨⟨-1, rfl, rfl, trivial⟩, by decide⟩
  ⟨ht, ((notice_prints_raw_status (fun _ _ => ⟨1234, exitedStatus 1⟩) 2 _ 0 1 1234 0 [] ht
    (by decide) (by decide)).1 1 (by decide) (by decide) rfl).imp
      fun _ hrun => ⟨hrun, by decide⟩⟩

/-- C5 (defect in the code): handling `exit` sends SIGTERM to every job that is
still registered, but nothing unlinks a job afterwards: the final reap pass only
polls without blocking, and when those polls report the jobs unchanged (they
have not died yet) every job is still in the list when the loop stops. -/
theorem exit_leaves_jobs_registered (env : Env) (fuel : Nat) (sh : Shell)
    (jobs : List (Nat × Int)) (ht : IsTable sh.heap sh.listHead jobs)
    (hall : ∀ k pid, (env.waitpid k pid).waitVal = 0) (hf : jobs.length + 1 ≤ fuel) :
    ∃ sh1, exitCommand env fuel sh = Except.ok (Control.stop, sh1) ∧
      IsTable sh1.heap sh1.listHead jobs ∧
      jobTable fuel sh1.heap sh1.listHead = some (jobs.map Prod.snd) ∧
      sh1.out = sh.out ++ (jobs.map fun c => Event.poll c.2)
        ++ (jobs.map fun c => Event.kill c.2) ++ (jobs.map fun c => Event.poll c.2) := by
  obtain ⟨hs1, hr1, hrep1⟩ := survivors_all_unchanged env.waitpid hall jobs sh.calls
  obtain ⟨h1, hrun1, ht1⟩ :=
    cleanupBackgroundProcesses_spec env.waitpid fuel sh.heap sh.listHead jobs sh.calls sh.out
      ht hrep1 hf
  rw [hs1] at ht1
  rw [hr1] at hrun1
  obtain ⟨⟨headPid, hhead, hl⟩, _⟩ := ht1
  have hkill := killLoop_spec h1 jobs (some sh.listHead) fuel
    (sh.out ++ jobs.map fun c => Event.poll c.2) hl hf
  have hkr : killRunningProcesses env.waitpid fuel sh.heap sh.listHead sh.calls sh.out
      = some (h1, sh.calls + jobs.length,
          sh.out ++ (jobs.map fun c => Event.poll c.2) ++ jobs.map fun c => Event.kill c.2) := by
    unfold killRunningProcesses
    rw [hrun1, Option.some_bind]
    simp only []
    rw [hhead, Option.some_bind]
    simp only []
    rw [hkill, Option.some_bind]
  have ht1 : IsTable h1 sh.listHead jobs := ⟨⟨headPid, hhead, hl⟩, ht.2⟩
  obtain ⟨hs2, hr2, hrep2⟩ :=
    survivors_all_unchanged env.waitpid hall jobs (sh.calls + jobs.length)
  obtain ⟨h2, hrun2, ht2⟩ :=
    cleanupBackgroundProcesses_spec env.waitpid fuel h1 sh.listHead jobs
      (sh.calls + jobs.length)
      (sh.out ++ (jobs.map fun c => Event.poll c.2) ++ jobs.map fun c => Event.kill c.2)
      ht1 hrep2 hf
  rw [hs2] at ht2
  rw [hr2] at hrun2
  refine ⟨{ sh with heap := h2, calls := sh.calls + jobs.length + jobs.length,
                    out := sh.out ++ (jobs.map fun c => Event.poll c.2)
                      ++ (jobs.map fun c => Event.kill c.2)
                      ++ (jobs.map fun c => Event.poll c.2) }, ?_, ht2,
    jobTable_spec h2 sh.listHead jobs fuel ht2 hf, rfl⟩
  unfold exitCommand
  rw [hkr]
  simp only []
  rw [hrun2]

/-- Witness for C5: `exit` with the three jobs 11, 12, 13 registered and every
poll answering that nothing changed: all three are still in the table. -/
theorem exit_leaves_jobs_registered_witness :
    IsTable exampleHeap 0 [(1, 11), (2, 12), (3, 13)] ∧
    ∃ sh1, exitCommand (sampleEnv 0 ⟨0, 0⟩) 4
        { initialShell 0 with heap := exampleHeap } = Except.ok (Control.stop, sh1) ∧
      jobTable 4 sh1.heap sh1.listHead = some [11, 12, 13] ∧
      sh1.out = (initialShell 0).out ++ [Event.poll 11, Event.poll 12, Event.poll 13,
        Event.kill 11, Event.kill 12, Event.kill 13,
        Event.poll 11, Event.poll 12, Event.poll 13] := by
  have ht : IsTable exampleHeap 0 [(1, 11), (2, 12), (3, 13)] :=
    ⟨⟨-1, rfl, rfl, rfl, rfl, trivial⟩, by decide⟩
  obtain ⟨sh1, hrun, _, htable, hout⟩ :=
    exit_leaves_jobs_registered (sampleEnv 0 ⟨0, 0⟩) 4
      { initialShell 0 with heap := exampleHeap } [(1, 11), (2, 12), (3, 13)] ht
      (fun _ _ => rfl) (by decide)
  exact ⟨ht, sh1, hrun, htable, by rw [hout]; rfl⟩

/-! ## The tables that the shell builds -/

/-- The list that `main` sets up is the empty job table. -/
theorem initialShell_table (listHead : Nat) :
    IsTable (initialShell listHead).heap (initialShell listHead).listHead [] := by
  refine ⟨⟨-1, ?_, trivial⟩, by simp [initialShell]⟩
  simp [initialShell, firstAddr]

theorem endOfList_spec (h : Heap) :
    ∀ (pre : List (Nat × Int)) (prev : Option Nat) (p : Nat × Int) (fuel : Nat),
      Linked h prev (pre ++ [p]) → pre.length + 1 ≤ fuel →
      ∀ start, firstAddr (pre ++ [p]) = some start → endOfList fuel h start = some p.1
  | [], _, p, fuel, hl, hf, start, hs => by
    obtain ⟨f, rfl⟩ : ∃ f, fuel = f + 1 := ⟨fuel - 1, by omega⟩
    have hstart : start = p.1 := by
      simpa [firstAddr] using hs.symm
    subst hstart
    rw [endOfList, hl.1, Option.some_bind]
    rfl
  | c :: pre, prev, p, fuel, hl, hf, start, hs => by
    obtain ⟨f, rfl⟩ : ∃ f, fuel = f + 1 := ⟨fuel - 1, by omega⟩
    simp only [List.length_cons] at hf
    have hstart : start = c.1 := by
      simpa [firstAddr] using hs.symm
    subst hstart
    obtain ⟨hc, hrest⟩ := hl
    have hnext : ∃ nxt, firstAddr (pre ++ [p]) = some nxt := by
      cases pre with
      | nil => exact ⟨p.1, rfl⟩
      | cons d pre1 => exact ⟨d.1, rfl⟩
    obtain ⟨nxt, hnxt⟩ := hnext
    have hc1 : h c.1 = some (backgroundProcess.mk c.2 (some nxt) prev) := by
      rw [← hnxt]; exact hc
    rw [endOfList, hc1, Option.some_bind]
    exact endOfList_spec h pre (some c.1) p f hrest (by omega) nxt hnxt

/-- Linking a fresh node behind the last node extends the list by it. -/
theorem Linked_append_node (h : Heap) (newProcess : Nat) (pid : Int) :
    ∀ (pre : List (Nat × Int)) (prev : Option Nat) (p : Nat × Int) (pprev : Option Nat),
      Linked h prev (pre ++ [p]) → h p.1 = some ⟨p.2, none, pprev⟩ →
      newProcess ∉ (pre ++ [p]).map Prod.fst → ((pre ++ [p]).map Prod.fst).Nodup →
      Linked ((h.write newProcess (some ⟨pid, none, some p.1⟩)).write p.1
          (some ⟨p.2, some newProcess, pprev⟩)) prev (pre ++ [p, (newProcess, pid)])
  | [], prev, p, pprev, hl, hp, hnew, _ => by
    have hpp : pprev = prev := by
      have := hl.1
      rw [hp] at this
      injection this with this
      injection this
    have hne : newProcess ≠ p.1 := by
      intro e
      apply hnew
      simp [e]
    refine ⟨?_, ?_, trivial⟩
    · rw [Heap.write_same, hpp]
      rfl
    · rw [Heap.write_other _ _ _ _ hne, Heap.write_same]
      rfl
  | c :: pre, prev, p, pprev, hl, hp, hnew, hnd => by
    obtain ⟨hc, hrest⟩ := hl
    simp only [List.cons_append, List.map_cons, List.mem_cons, not_or, List.nodup_cons]
      at hnew hnd
    have hcp : c.1 ≠ p.1 := by
      intro e
      apply hnd.1
      rw [List.map_append]
      exact List.mem_append_right _ (by simp [e])
    refine ⟨?_, Linked_append_node h newProcess pid pre (some c.1) p pprev hrest hp hnew.2
      hnd.2⟩
    rw [Heap.write_other _ _ _ _ hcp, Heap.write_other _ _ _ _ (Ne.symm hnew.1), hc]
    have hfa := firstAddr_append_cons pre p [] [(newProcess, pid)]
    show some (backgroundProcess.mk c.2 (firstAddr (pre ++ [p])) prev)
      = some (backgroundProcess.mk c.2 (firstAddr (pre ++ [p, (newProcess, pid)])) prev)
    rw [hfa]

/-- The parent branch of `createBackgroundProcess` appends the new process to
the job table. -/
theorem appendBackgroundProcess_spec (fuel : Nat) (h : Heap) (listHead newProcess : Nat)
    (newChildPid : Int) (jobs : List (Nat × Int)) (ht : IsTable h listHead jobs)
    (hnew : newProcess ∉ listHead :: jobs.map Prod.fst) (hf : jobs.length + 1 ≤ fuel) :
    ∃ h1, appendBackgroundProcess fuel h listHead newProcess newChildPid = some h1 ∧
      IsTable h1 listHead (jobs ++ [(newProcess, newChildPid)]) := by
  obtain ⟨⟨headPid, hl⟩, hnd⟩ := ht
  obtain ⟨pre, p, hsplit⟩ : ∃ pre p, (listHead, headPid) :: jobs = pre ++ [p] := by
    have hne : (listHead, headPid) :: jobs ≠ [] := by simp
    exact ⟨_, _, (List.dropLast_append_getLast hne).symm⟩
  have hlen : pre.length = jobs.length := by
    have := congrArg List.length hsplit
    simp only [List.length_cons, List.length_append, List.length_nil] at this
    omega
  have hmap : listHead :: jobs.map Prod.fst = (pre ++ [p]).map Prod.fst := by
    rw [← hsplit]; rfl
  rw [hsplit] at hl
  rw [hmap] at hnd hnew
  have hstart : firstAddr (pre ++ [p]) = some listHead := by
    rw [← hsplit]; rfl
  have hend := endOfList_spec h pre none p fuel hl (by omega) listHead hstart
  obtain ⟨pprev, hp⟩ := Linked_last h pre none p [] hl
  have hlinked := Linked_append_node h newProcess newChildPid pre none p pprev hl hp hnew hnd
  refine ⟨(h.write newProcess (some ⟨newChildPid, none, some p.1⟩)).write p.1
    (some ⟨p.2, some newProcess, pprev⟩), ?_, ⟨headPid, ?_⟩, ?_⟩
  · unfold appendBackgroundProcess
    rw [hend, Option.some_bind, hp, Option.some_bind]
  · have hcells : (listHead, headPid) :: (jobs ++ [(newProcess, newChildPid)])
        = pre ++ [p, (newProcess, newChildPid)] := by
      rw [← List.cons_append, hsplit, List.append_assoc]
      rfl
    rw [hcells]
    exact hlinked
  · have hmap2 : listHead :: (jobs ++ [(newProcess, newChildPid)]).map Prod.fst
        = (pre ++ [p]).map Prod.fst ++ [newProcess] := by
      rw [← hmap]; simp
    rw [hmap2]
    refine List.Nodup.append hnd (by simp) ?_
    intro x hx1 hx2
    simp only [List.mem_singleton] at hx2
    subst hx2
    exact hnew hx1

/-! ## The mode-toggle signal -/

/-- C14 (defect in the code): the handler flips `foregroundOnly` as the claim
says and writes exactly the 28 bytes of `Exiting foreground-only mode`, but on
entering the mode it calls `write` with a count of 49 for a literal of 48
characters: the terminating NUL is written after the text, one byte more than
the literal. -/
theorem handle_CTLZ_extra_byte :
    handle_CTLZ 0 = (1, some ("Entering foreground-only mode (& is now ignored)".toList
      ++ [Char.ofNat 0])) ∧
    "Entering foreground-only mode (& is now ignored)".toList.length = 48 ∧
    handle_CTLZ 1 = (0, some "Exiting foreground-only mode".toList) ∧
    (handle_CTLZ (handle_CTLZ 0).1).1 = 0 ∧ (handle_CTLZ (handle_CTLZ 1).1).1 = 1 := by
  decide

/-! ## The `cd` builtin -/

/-- C11 (defect in the code): with an argument, `cd` passes the argument
unchanged exactly when the first 7 bytes (`sizeof(path) - 1` for the pointer
`path`) of HOME and of the argument agree as C strings, and otherwise passes the
current directory, `/` and the argument; this is not the test whether the
argument begins with the whole of HOME. -/
theorem cd_compares_seven_bytes (env : Env) (sh : Shell) (saveptr inputArg path : CString)
    (harg : (strtok_r saveptr).1 = some inputArg) (hhome : env.home = some path)
    (hbuf : env.cwd.length + 1 ≤ 249 ∧ env.cwd.length + 1 + inputArg.length + 1 ≤ 250) :
    cdCommand env sh saveptr = Except.ok (sh.emit [Event.chdir (some
      (if path.take 7 = inputArg.take 7 then inputArg
        else env.cwd ++ "/".toList ++ inputArg))]) := by
  unfold cdCommand
  rw [harg]
  simp only []
  rw [hhome]
  simp only []
  by_cases h7 : path.take 7 = inputArg.take 7
  · rw [if_pos h7, if_pos h7]
  · rw [if_neg h7, if_neg h7, if_pos hbuf]

/-- Witness for C11: HOME is `/root`, the current directory `/tmp`; `cd
/root/docs` names a path that begins with the whole of HOME, and the shell
passes `/tmp//root/docs` to `chdir`. -/
theorem cd_compares_seven_bytes_witness :
    (strtok_r " /root/docs".toList).1 = some "/root/docs".toList ∧
    "/root/docs".toList.take "/root".toList.length = "/root".toList ∧
    cdCommand { sampleEnv 0 ⟨0, 0⟩ with home := some "/root".toList } (initialShell 0)
        " /root/docs".toList
      = Except.ok ((initialShell 0).emit [Event.chdir (some "/tmp//root/docs".toList)]) :=
  ⟨by decide, by decide,
    cd_compares_seven_bytes { sampleEnv 0 ⟨0, 0⟩ with home := some "/root".toList }
      (initialShell 0) " /root/docs".toList "/root/docs".toList "/root".toList (by decide)
      rfl (by decide)⟩

/-! ## The bounds of the argument array -/

/-- C15 (defect in the code): with at most 512 kept tokens every write of
`parseArgs` stays inside the 514 cells, but for a command name with 512 further
arguments (513 kept tokens) the loop fills the cells 0 to 512 and the
terminator is then written by `args[argIndex+1] = NULL` at index 514, outside
the array. -/
theorem parseArgs_terminator_outside (expandedArgs : CString) :
    ((keptArgs (tokens expandedArgs)).length ≤ 512 →
      ∃ args, parseArgs expandedArgs = some args ∧ args.length = 514 ∧
        args[(keptArgs (tokens expandedArgs)).length + 1]? = some Slot.null) ∧
    ((keptArgs (tokens expandedArgs)).length = 513 →
      parseLoop (expandedArgs.length + 1) (strtok_r expandedArgs).1 (strtok_r expandedArgs).2
          (List.replicate 514 Slot.uninit) 0
        = some ((keptArgs (tokens expandedArgs)).map Slot.str ++ [Slot.uninit], 513) ∧
      ((keptArgs (tokens expandedArgs)).map Slot.str ++ [Slot.uninit]).length = 514 ∧
      writeSlot ((keptArgs (tokens expandedArgs)).map Slot.str ++ [Slot.uninit]) (513 + 1)
          Slot.null = none ∧
      parseArgs expandedArgs = none) := by
  constructor
  · intro hk
    refine ⟨_, parseArgs_eq expandedArgs hk, ?_, ?_⟩
    · simp only [List.length_append, List.length_map, List.length_cons, List.length_replicate]
      omega
    · rw [List.getElem?_append_right (by simp)]
      simp
  · intro hk
    have hloop := parseLoop_spec (tokens expandedArgs).length (tokens expandedArgs)
      (expandedArgs.length + 1) (strtok_r expandedArgs).1 (strtok_r expandedArgs).2 [] 514
      (le_refl _) (pending_strtok_r expandedArgs)
      (by have := tokens_length_le expandedArgs.length expandedArgs (le_refl _); omega)
      (by omega)
    simp only [List.map_nil, List.nil_append, List.length_nil, Nat.zero_add, hk] at hloop
    have hlen : ((keptArgs (tokens expandedArgs)).map Slot.str ++ [Slot.uninit]).length = 514 := by
      simp [hk]
    have hw : writeSlot ((keptArgs (tokens expandedArgs)).map Slot.str ++ [Slot.uninit])
        (513 + 1) Slot.null = none := by
      unfold writeSlot
      rw [if_neg (by rw [hlen]; decide)]
    refine ⟨hloop, hlen, hw, ?_⟩
    unfold parseArgs
    rw [hloop, Option.some_bind]
    exact hw

/-- A command name followed by 512 arguments. -/
theorem parseArgs_terminator_outside_line :
    (keptArgs (tokens ("a".toList ++ (List.replicate 512 " b".toList).flatten))).length = 513 := by
  set_option maxRecDepth 100000 in decide

/-- Witness for C15: the line `a b b ... b` with 512 arguments `b`. -/
theorem parseArgs_terminator_outside_witness :
    (keptArgs (tokens ("a".toList ++ (List.replicate 512 " b".toList).flatten))).length = 513 ∧
    parseArgs ("a".toList ++ (List.replicate 512 " b".toList).flatten) = none :=
  ⟨parseArgs_terminator_outside_line,
    ((parseArgs_terminator_outside ("a".toList ++ (List.replicate 512 " b".toList).flatten)).2
      parseArgs_terminator_outside_line).2.2.2⟩

/-! ## What changes `lastStatus` -/

theorem reap_lastStatus (env : Env) (fuel : Nat) (sh : Shell) (c : Control) (sh1 : Shell)
    (h : reap env fuel sh = Except.ok (c, sh1)) :
    sh1.lastStatus = sh.lastStatus ∧ c = Control.prompt := by
  unfold reap at h
  split at h
  · cases h
  · injection h with h
    injection h with h1 h2
    subst h2
    exact ⟨rfl, h1.symm⟩

theorem exitCommand_lastStatus (env : Env) (fuel : Nat) (sh : Shell) (c : Control) (sh1 : Shell)
    (h : exitCommand env fuel sh = Except.ok (c, sh1)) : sh1.lastStatus = sh.lastStatus := by
  unfold exitCommand at h
  split at h
  · cases h
  · split at h
    · cases h
    · injection h with h
      injection h with h1 h2
      subst h2
      rfl

theorem cdCommand_lastStatus (env : Env) (sh : Shell) (saveptr : CString) (sh1 : Shell)
    (h : cdCommand env sh saveptr = Except.ok sh1) : sh1.lastStatus = sh.lastStatus := by
  unfold cdCommand at h
  split at h
  · injection h with h
    subst h
    rfl
  · split at h
    · cases h
    · split at h
      · injection h with h
        subst h
        rfl
      · split at h
        · injection h with h
          subst h
          rfl
        · cases h

theorem statusCommand_lastStatus (sh : Shell) : (statusCommand sh).lastStatus = sh.lastStatus := by
  unfold statusCommand
  split <;> rfl

theorem foregroundProcess_lastStatus (env : Env) (sh : Shell) (expandedArgs : CString)
    (c : Control) (sh1 : Shell)
    (h : foregroundProcess env sh expandedArgs = Except.ok (c, sh1)) :
    (sh1.lastStatus = sh.lastStatus ∧ c ≠ Control.prompt) ∨
      (sh1.lastStatus = env.childStatus ∧ c = Control.prompt ∧
        env.forkResult ≠ -1 ∧ env.forkResult ≠ 0) := by
  unfold foregroundProcess at h
  simp only [Shell.emit] at h
  split at h
  · injection h with h
    injection h with h1 h2
    subst h1 h2
    exact Or.inl ⟨rfl, by decide⟩
  · split at h
    · injection h with h
      injection h with h1 h2
      subst h1 h2
      exact Or.inl ⟨rfl, by simp⟩
    · injection h with h
      injection h with h1 h2
      subst h1 h2
      exact Or.inr ⟨rfl, rfl, by assumption, by assumption⟩

theorem thenReap_lastStatus (env : Env) (fuel : Nat) (r : Except Fault (Control × Shell))
    (c : Control) (sh1 : Shell) (h : thenReap env fuel r = Except.ok (c, sh1)) :
    ∃ c0 sh0, r = Except.ok (c0, sh0) ∧ sh1.lastStatus = sh0.lastStatus ∧
      (c0 = Control.prompt → c = Control.prompt) := by
  cases r with
  | error f => cases h
  | ok r0 =>
    obtain ⟨c0, sh0⟩ := r0
    cases c0 with
    | prompt =>
      have := reap_lastStatus env fuel sh0 c sh1 h
      exact ⟨_, _, rfl, this.1, fun _ => this.2⟩
    | stop =>
      injection h with h
      injection h with h1 h2
      subst h2
      exact ⟨_, _, rfl, rfl, fun e => by cases e⟩
    | exitFailure =>
      injection h with h
      injection h with h1 h2
      subst h2
      exact ⟨_, _, rfl, rfl, fun e => by cases e⟩
    | child fg e =>
      injection h with h
      injection h with h1 h2
      subst h2
      exact ⟨_, _, rfl, rfl, fun e => by cases e⟩

theorem launch_lastStatus (env : Env) (fuel : Nat) (sh : Shell) (expandedArgs : CString)
    (c : Control) (sh1 : Shell) (h : launch env fuel sh expandedArgs = Except.ok (c, sh1)) :
    (sh1.lastStatus = sh.lastStatus) ∨
      (sh1.lastStatus = env.childStatus ∧ c = Control.prompt ∧
        env.forkResult ≠ -1 ∧ env.forkResult ≠ 0 ∧
        ∃ backgroundCommand, checkBackgroundCommand expandedArgs = some backgroundCommand ∧
          launchPath sh.foregroundOnly backgroundCommand = Path.foreground) := by
  rw [launch_eq] at h
  cases hp : launchPath sh.foregroundOnly
      (if (tokens expandedArgs).getLast? = some "&".toList then 1 else 0) with
  | background =>
    rw [hp] at h
    exact Or.inl (createBackgroundProcess_no_wait env fuel sh expandedArgs c sh1 h).1
  | foreground =>
    rw [hp] at h
    rcases foregroundProcess_lastStatus env sh expandedArgs c sh1 h with h1 | h1
    · exact Or.inl h1.1
    · exact Or.inr ⟨h1.1, h1.2.1, h1.2.2.1, h1.2.2.2, _, checkBackgroundCommand_eq expandedArgs, hp⟩

theorem dispatch_lastStatus (env : Env) (fuel : Nat) (sh : Shell) (expandedArgs : CString)
    (c : Control) (sh1 : Shell) (h : dispatch env fuel sh expandedArgs = Except.ok (c, sh1)) :
    sh1.lastStatus = sh.lastStatus ∨
      (sh1.lastStatus = env.childStatus ∧ RunsForeground env sh expandedArgs) := by
  unfold dispatch at h
  cases htok : (strtok_r expandedArgs).1 with
  | none =>
    rw [htok] at h
    cases h
  | some inputToken =>
    rw [htok] at h
    simp only [] at h
    by_cases hcomment : inputToken.head? ≠ some (Char.ofNat 35)
    · rw [if_pos hcomment] at h
      by_cases hexit : inputToken = "exit".toList
      · rw [if_pos hexit] at h
        exact Or.inl (exitCommand_lastStatus env fuel sh c sh1 h)
      · rw [if_neg hexit] at h
        by_cases hcd : inputToken = "cd".toList
        · rw [if_pos hcd] at h
          cases hcdr : cdCommand env sh (strtok_r expandedArgs).2 with
          | error f =>
            rw [hcdr] at h
            cases h
          | ok sh0 =>
            rw [hcdr] at h
            simp only [] at h
            have h1 := (reap_lastStatus env fuel sh0 c sh1 h).1
            have h2 := cdCommand_lastStatus env sh _ sh0 hcdr
            exact Or.inl (h1.trans h2)
        · rw [if_neg hcd] at h
          by_cases hstatus : inputToken = "status".toList
          · rw [if_pos hstatus] at h
            have h1 := (reap_lastStatus env fuel _ c sh1 h).1
            exact Or.inl (h1.trans (statusCommand_lastStatus sh))
          · rw [if_neg hstatus] at h
            obtain ⟨c0, sh0, hl, hls, hc⟩ := thenReap_lastStatus env fuel _ c sh1 h
            rcases launch_lastStatus env fuel sh expandedArgs c0 sh0 hl with h1 | h1
            · exact Or.inl (hls.trans h1)
            · obtain ⟨ha, _, hb, hc1, bc, hd, he⟩ := h1
              exact Or.inr ⟨hls.trans ha,
                inputToken, bc, htok, hcomment, hexit, hcd, hstatus, hd, he, hb, hc1⟩
    · rw [if_neg hcomment] at h
      exact Or.inl (reap_lastStatus env fuel sh c sh1 h).1

/-- C13: one iteration of the dispatch loop changes `lastStatus` only when it
runs a command on the foreground path, and then to the wait status of that
child; builtins, comment lines, background launches and the reap pass, whatever
the polls of the background jobs answer, leave it unchanged. On a well-formed
job table the foreground iteration returns and stores that status. -/
theorem lastStatus_frame (env : Env) (fuel : Nat) (sh : Shell) (userInput : CString) :
    (∀ c sh1, iteration env fuel sh userInput = Except.ok (c, sh1) →
      sh1.lastStatus = sh.lastStatus ∨
        (sh1.lastStatus = env.childStatus ∧ 1 < userInput.length ∧
          ∃ expandedArgs,
            expandVariables (pidText env.pid) userInput.dropLast = some expandedArgs ∧
            RunsForeground env sh expandedArgs)) ∧
    (∀ c sh1, reap env fuel sh = Except.ok (c, sh1) → sh1.lastStatus = sh.lastStatus) ∧
    (∀ expandedArgs c sh1, createBackgroundProcess env fuel sh expandedArgs = Except.ok (c, sh1) →
      sh1.lastStatus = sh.lastStatus) ∧
    (∀ expandedArgs jobs, 1 < userInput.length →
      expandVariables (pidText env.pid) userInput.dropLast = some expandedArgs →
      RunsForeground env sh expandedArgs →
      IsTable sh.heap sh.listHead jobs → AllReported env.waitpid sh.calls jobs →
      jobs.length + 1 ≤ fuel →
      ∃ sh1, iteration env fuel sh userInput = Except.ok (Control.prompt, sh1) ∧
        sh1.lastStatus = env.childStatus) := by
  refine ⟨?_, fun c sh1 h => (reap_lastStatus env fuel sh c sh1 h).1,
    fun e c sh1 h => (createBackgroundProcess_no_wait env fuel sh e c sh1 h).1, ?_⟩
  · intro c sh1 h
    unfold iteration at h
    simp only [] at h
    by_cases hlen : 1 < userInput.length
    · rw [if_pos hlen] at h
      cases hexp : expandVariables (pidText env.pid) userInput.dropLast with
      | none =>
        rw [hexp] at h
        cases h
      | some expandedArgs =>
        rw [hexp] at h
        simp only [] at h
        rcases dispatch_lastStatus env fuel _ expandedArgs c sh1 h with h1 | h1
        · exact Or.inl h1
        · exact Or.inr ⟨h1.1, hlen, expandedArgs, rfl, h1.2⟩
    · rw [if_neg hlen] at h
      exact Or.inl (reap_lastStatus env fuel _ c sh1 h).1
  · intro expandedArgs jobs hlen hexp hrun ht hrep hf
    obtain ⟨inputToken, bc, htok, hcomment, hexit, hcd, hstatus, hbc, hpath, hf1, hf0⟩ := hrun
    obtain ⟨h1, hclean, _⟩ := cleanupBackgroundProcesses_spec env.waitpid fuel sh.heap
      sh.listHead jobs sh.calls
      (sh.out ++ [Event.stdout ": ".toList] ++ [Event.fork env.forkResult]
        ++ [Event.wait env.forkResult]) ht hrep hf
    refine ⟨{ sh with
               lastStatus := env.childStatus
               heap := h1
               calls := sh.calls + jobs.length
               out := sh.out ++ [Event.stdout ": ".toList] ++ [Event.fork env.forkResult]
                 ++ [Event.wait env.forkResult] ++ reapEvents env.waitpid sh.calls jobs },
      ?_, rfl⟩
    unfold iteration
    simp only []
    rw [if_pos hlen, hexp]
    simp only []
    rw [dispatch_launch env fuel _ expandedArgs inputToken htok hcomment hexit hcd hstatus]
    unfold launch
    rw [hbc]
    simp only []
    have hpath1 : launchPath (sh.emit [Event.stdout ": ".toList]).foregroundOnly bc
        = Path.foreground := hpath
    rw [hpath1]
    simp only []
    rw [foregroundProcess_parent env _ expandedArgs hf1 hf0]
    unfold thenReap reap
    simp only [Shell.emit]
    rw [hclean]

/-- Witness for C13: the foreground command `false`, whose child ends with
wait status 512, run in the initial state. -/
theorem lastStatus_frame_witness :
    1 < "false\n".toList.length ∧
    RunsForeground (sampleEnv 512 ⟨0, 0⟩) (initialShell 0) "false".toList ∧
    ∃ sh1, iteration (sampleEnv 512 ⟨0, 0⟩) 3 (initialShell 0) "false\n".toList
        = Except.ok (Control.prompt, sh1) ∧
      sh1.lastStatus = (sampleEnv 512 ⟨0, 0⟩).childStatus :=
  have hrun : RunsForeground (sampleEnv 512 ⟨0, 0⟩) (initialShell 0) "false".toList :=
    ⟨"false".toList, 0, by decide, by decide, by decide, by decide, by decide, by decide,
      by decide, by decide, by decide⟩
  ⟨by decide, hrun,
    (lastStatus_frame (sampleEnv 512 ⟨0, 0⟩) 3 (initialShell 0) "false\n".toList).2.2.2
      "false".toList [] (by decide) (by decide) hrun (initialShell_table 0) trivial (by decide)⟩

/-! ## Redirection in the child -/

theorem strtok_r_of_tokens_nil (s : CString) (h : tokens s = []) : (strtok_r s).1 = none := by
  cases hs : (strtok_r s).1 with
  | none => rfl
  | some t =>
    rw [tokens_of_some s t hs] at h
    cases h

theorem strtok_r_of_tokens_cons (s u : CString) (r : List CString) (h : tokens s = u :: r) :
    (strtok_r s).1 = some u ∧ tokens (strtok_r s).2 = r := by
  cases hs : (strtok_r s).1 with
  | none =>
    rw [tokens_of_none s hs] at h
    cases h
  | some t =>
    rw [tokens_of_some s t hs] at h
    injection h with h1 h2
    exact ⟨by rw [h1], h2⟩

theorem redirections_other (t : CString) (rest : List CString)
    (h1 : t ≠ "<".toList) (h2 : t ≠ ">".toList) :
    redirections (t :: rest) = redirections rest := by
  cases rest with
  | nil => rw [redirections.eq_2, if_neg h1, if_neg h2]; rfl
  | cons u r => rw [redirections.eq_3, if_neg h1, if_neg h2]

/-- The loop of `redirectIO` handles the redirections of the line in order. -/
theorem redirectLoop_spec (openOk : CString → OpenMode → Bool) :
    ∀ (n : Nat) (toks : List CString) (fuel : Nat) (token : Option CString) (saveptr : CString)
      (st : Redirect),
      toks.length ≤ n → pending token saveptr = toks → toks.length + 1 ≤ fuel →
      redirectLoop openOk fuel token saveptr st
        = applyRedirections openOk (redirections toks) st
  | _, [], fuel, token, saveptr, st, _, hp, hf => by
    obtain ⟨f, rfl⟩ : ∃ f, fuel = f + 1 := ⟨fuel - 1, by omega⟩
    rw [pending_nil hp, redirectLoop]
    rfl
  | 0, t :: rest, _, _, _, _, hn, _, _ => by
    simp at hn
  | n + 1, t :: rest, fuel, token, saveptr, st, hn, hp, hf => by
    obtain ⟨f, rfl⟩ : ∃ f, fuel = f + 1 := ⟨fuel - 1, by omega⟩
    obtain ⟨htok, hrest⟩ := pending_cons hp
    simp only [List.length_cons] at hf hn
    rw [htok, redirectLoop]
    by_cases hin : t = "<".toList
    · rw [if_pos hin]
      cases rest with
      | nil =>
        rw [strtok_r_of_tokens_nil saveptr hrest, redirections.eq_2, if_pos hin]
        rfl
      | cons u r =>
        obtain ⟨hu, hr⟩ := strtok_r_of_tokens_cons saveptr u r hrest
        rw [hu, Option.some_bind, redirections.eq_3, if_pos hin, applyRedirections]
        cases hcat : strcat 250 st.inPath u with
        | none => rfl
        | some inPath1 =>
          rw [Option.some_bind, Option.some_bind]
          by_cases hopen : openOk inPath1 OpenMode.readOnly = true
          · rw [if_pos hopen, if_pos hopen]
            simp only [List.length_cons] at hf hn
            exact redirectLoop_spec openOk n r f _ _ _ (by omega)
              (by rw [pending_strtok_r, hr]) (by omega)
          · rw [if_neg hopen, if_neg hopen]
    · rw [if_neg hin]
      by_cases hout : t = ">".toList
      · rw [if_pos hout]
        cases rest with
        | nil =>
          rw [strtok_r_of_tokens_nil saveptr hrest, redirections.eq_2, if_neg hin, if_pos hout]
          rfl
        | cons u r =>
          obtain ⟨hu, hr⟩ := strtok_r_of_tokens_cons saveptr u r hrest
          rw [hu, Option.some_bind, redirections.eq_3, if_neg hin, if_pos hout,
            applyRedirections]
          cases hcat : strcat 250 st.outPath u with
          | none => rfl
          | some outPath1 =>
            rw [Option.some_bind, Option.some_bind]
            by_cases hopen : openOk outPath1 OpenMode.writeCreateTruncate = true
            · rw [if_pos hopen, if_pos hopen]
              simp only [List.length_cons] at hf hn
              exact redirectLoop_spec openOk n r f _ _ _ (by omega)
                (by rw [pending_strtok_r, hr]) (by omega)
            · rw [if_neg hopen, if_neg hopen]
      · rw [if_neg hout, redirections_other t rest hin hout]
        exact redirectLoop_spec openOk n rest f _ _ _ (by omega)
          (by rw [pending_strtok_r, hrest]) (by omega)

theorem redirectIO_loop (openOk : CString → OpenMode → Bool) (expandedArgs : CString)
    (st : Redirect) :
    redirectLoop openOk (expandedArgs.length + 1) (strtok_r expandedArgs).1
        (strtok_r expandedArgs).2 st
      = applyRedirections openOk (redirections (tokens expandedArgs)) st :=
  redirectLoop_spec openOk (tokens expandedArgs).length (tokens expandedArgs) _ _ _ st
    (le_refl _) (pending_strtok_r expandedArgs)
    (by have := tokens_length_le expandedArgs.length expandedArgs (le_refl _); omega)

theorem redirections_ne_nil_tokens :
    ∀ toks : List CString, redirections toks ≠ [] → toks ≠ []
  | [], h => absurd rfl h
  | _ :: _, _ => by simp

/-- A redirection without a path is the last token of the line. -/
theorem redirections_getLast (b : Bool) :
    ∀ toks : List CString, (redirections toks).getLast? = some (b, none) →
      toks.getLast? = some (if b then "<".toList else ">".toList)
  | [], h => by
    rw [redirections] at h
    cases h
  | [t], h => by
    rw [redirections.eq_2] at h
    by_cases h1 : t = "<".toList
    · rw [if_pos h1] at h
      have hb : b = true := by
        simp only [List.getLast?_singleton, Option.some.injEq, Prod.mk.injEq] at h
        exact h.1.symm
      subst hb
      rw [h1]
      rfl
    · rw [if_neg h1] at h
      by_cases h2 : t = ">".toList
      · rw [if_pos h2] at h
        have hb : b = false := by
          simp only [List.getLast?_singleton, Option.some.injEq, Prod.mk.injEq] at h
          exact h.1.symm
        subst hb
        rw [h2]
        rfl
      · rw [if_neg h2] at h
        cases h
  | t :: u :: rest, h => by
    rw [redirections.eq_3] at h
    by_cases h1 : t = "<".toList
    · rw [if_pos h1] at h
      cases hr : redirections rest with
      | nil =>
        rw [hr] at h
        simp at h
      | cons x xs =>
        rw [hr, List.getLast?_cons_cons] at h
        have hne : rest ≠ [] := redirections_ne_nil_tokens rest (by rw [hr]; simp)
        have ih := redirections_getLast b rest (by rw [hr]; exact h)
        obtain ⟨y, ys, hys⟩ := List.exists_cons_of_ne_nil hne
        rw [hys, List.getLast?_cons_cons, List.getLast?_cons_cons, ← hys]
        exact ih
    · rw [if_neg h1] at h
      by_cases h2 : t = ">".toList
      · rw [if_pos h2] at h
        cases hr : redirections rest with
        | nil =>
          rw [hr] at h
          simp at h
        | cons x xs =>
          rw [hr, List.getLast?_cons_cons] at h
          have hne : rest ≠ [] := redirections_ne_nil_tokens rest (by rw [hr]; simp)
          have ih := redirections_getLast b rest (by rw [hr]; exact h)
          obtain ⟨y, ys, hys⟩ := List.exists_cons_of_ne_nil hne
          rw [hys, List.getLast?_cons_cons, List.getLast?_cons_cons, ← hys]
          exact ih
      · rw [if_neg h2] at h
        rw [List.getLast?_cons_cons]
        exact redirections_getLast b (u :: rest) h

/-- The loop never ends normally on a line whose last redirection has no path:
it returns -1 at an earlier `open` that failed or hands NULL to `strcat`. -/
theorem applyRedirections_dangling (openOk : CString → OpenMode → Bool) (b : Bool) :
    ∀ (rs : List (Bool × Option CString)) (st : Redirect) (r : Int × Redirect × List Event),
      rs.getLast? = some (b, none) → applyRedirections openOk rs st = some r → r.1 = -1
  | [], _, _, hl, _ => by cases hl
  | (_, none) :: _, _, _, _, h => by
    rw [applyRedirections] at h
    cases h
  | (true, some p) :: rest, st, r, hl, h => by
    rw [applyRedirections] at h
    cases hcat : strcat 250 st.inPath p with
    | none =>
      rw [hcat] at h
      cases h
    | some inPath1 =>
      rw [hcat, Option.some_bind] at h
      by_cases hopen : openOk inPath1 OpenMode.readOnly = true
      · rw [if_pos hopen] at h
        cases rest with
        | nil => simp at hl
        | cons x xs =>
          rw [List.getLast?_cons_cons] at hl
          exact applyRedirections_dangling openOk b (x :: xs) _ r hl h
      · rw [if_neg hopen] at h
        injection h with h
        subst h
        rfl
  | (false, some p) :: rest, st, r, hl, h => by
    rw [applyRedirections] at h
    cases hcat : strcat 250 st.outPath p with
    | none =>
      rw [hcat] at h
      cases h
    | some outPath1 =>
      rw [hcat, Option.some_bind] at h
      by_cases hopen : openOk outPath1 OpenMode.writeCreateTruncate = true
      · rw [if_pos hopen] at h
        cases rest with
        | nil => simp at hl
        | cons x xs =>
          rw [List.getLast?_cons_cons] at hl
          exact applyRedirections_dangling openOk b (x :: xs) _ r hl h
      · rw [if_neg hopen] at h
        injection h with h
        subst h
        rfl

theorem redirectIO_dangling (openOk : CString → OpenMode → Bool) (cwd expandedArgs : CString)
    (foreground : Int) (b : Bool) (r : Redirected)
    (hdang : (redirections (tokens expandedArgs)).getLast? = some (b, none))
    (h : redirectIO openOk cwd expandedArgs foreground = some r) : r.result = -1 := by
  unfold redirectIO at h
  split at h
  · cases hbase : strcat 250 cwd "/".toList with
    | none =>
      rw [hbase] at h
      cases h
    | some base =>
      rw [hbase, Option.some_bind, redirectIO_loop] at h
      cases hloop : applyRedirections openOk (redirections (tokens expandedArgs))
          ⟨base, base, 0, 0, Binding.inherited, Binding.inherited⟩ with
      | none =>
        rw [hloop] at h
        cases h
      | some r0 =>
        rw [hloop, Option.some_bind] at h
        have h1 := applyRedirections_dangling openOk b _ _ r0 hdang hloop
        rw [if_pos h1] at h
        injection h with h
        subst h
        rfl
  · cases h

theorem redirectIO_only_dangling (openOk : CString → OpenMode → Bool)
    (cwd expandedArgs : CString) (foreground : Int) (b : Bool)
    (hdang : redirections (tokens expandedArgs) = [(b, none)]) :
    redirectIO openOk cwd expandedArgs foreground = none := by
  unfold redirectIO
  split
  · cases hbase : strcat 250 cwd "/".toList with
    | none => rfl
    | some base =>
      rw [Option.some_bind, redirectIO_loop, hdang, applyRedirections]
      rfl
  · rfl

/-- A line whose only `<` or `>` token is its last token has that token as its
one redirection, without a path. -/
theorem redirections_plain_append (b : Bool) :
    ∀ pre : List CString, (∀ t ∈ pre, t ≠ "<".toList ∧ t ≠ ">".toList) →
      redirections (pre ++ [if b then "<".toList else ">".toList]) = [(b, none)]
  | [], _ => by cases b <;> rfl
  | t :: rest, h => by
    rw [List.cons_append, redirections_other t _ (h t (List.mem_cons_self _ _)).1
      (h t (List.mem_cons_self _ _)).2]
    exact redirections_plain_append b rest (fun u hu => h u (List.mem_cons_of_mem _ hu))

theorem foregroundProcess_child (env : Env) (fuel : Nat) (sh : Shell) (expandedArgs : CString)
    (h0 : env.forkResult = 0) :
    thenReap env fuel (foregroundProcess env sh expandedArgs)
      = Except.ok (Control.child 1 expandedArgs, sh.emit [Event.fork env.forkResult]) := by
  have h1 : env.forkResult ≠ -1 := by
    rw [h0]
    decide
  unfold foregroundProcess
  simp only []
  rw [if_neg h1, if_pos h0]
  rfl

/-- C8 (defect in the code): for a line that is neither a comment nor a
builtin and whose last redirection token has no path after it (the token is
then the last token of the line, `<` or `>`), a command is produced all the
same. `main` takes the foreground path: in the shell it forks, waits for the
child and stores the child's wait status in `lastStatus`; in the child
(`fork` returned 0) control goes on to `redirectIO(expandedArgs, 1)`. There
`redirectIO` never returns 0: either it returns -1 at an earlier `open` that
failed, or the NULL path token reaches `strcat` (lines 226, 240), and when the
token without a path is the only redirection of the line it always does: so
for every line whose only `<` or `>` token is its last token. -/
theorem dangling_redirect_forks (env : Env) (fuel : Nat) (sh : Shell)
    (expandedArgs inputToken : CString) (b : Bool)
    (htok : (strtok_r expandedArgs).1 = some inputToken)
    (hcomment : inputToken.head? ≠ some (Char.ofNat 35))
    (hexit : inputToken ≠ "exit".toList) (hcd : inputToken ≠ "cd".toList)
    (hstatus : inputToken ≠ "status".toList)
    (hdang : (redirections (tokens expandedArgs)).getLast? = some (b, none)) :
    (tokens expandedArgs).getLast? = some (if b then "<".toList else ">".toList) ∧
    dispatch env fuel sh expandedArgs
      = thenReap env fuel (foregroundProcess env sh expandedArgs) ∧
    (env.forkResult ≠ -1 → env.forkResult ≠ 0 →
      foregroundProcess env sh expandedArgs = Except.ok (Control.prompt,
        { sh with lastStatus := env.childStatus,
                  out := sh.out ++ [Event.fork env.forkResult]
                    ++ [Event.wait env.forkResult] })) ∧
    (env.forkResult = 0 →
      dispatch env fuel sh expandedArgs
        = Except.ok (Control.child 1 expandedArgs, sh.emit [Event.fork env.forkResult])) ∧
    (∀ (openOk : CString → OpenMode → Bool) (cwd : CString) (foreground : Int) (r : Redirected),
      redirectIO openOk cwd expandedArgs foreground = some r → r.result = -1) ∧
    (redirections (tokens expandedArgs) = [(b, none)] →
      ∀ (openOk : CString → OpenMode → Bool) (cwd : CString) (foreground : Int),
        redirectIO openOk cwd expandedArgs foreground = none) ∧
    (∀ pre : List CString,
      tokens expandedArgs = pre ++ [if b then "<".toList else ">".toList] →
      (∀ t ∈ pre, t ≠ "<".toList ∧ t ≠ ">".toList) →
      ∀ (openOk : CString → OpenMode → Bool) (cwd : CString) (foreground : Int),
        redirectIO openOk cwd expandedArgs foreground = none) := by
  have hlast := redirections_getLast b (tokens expandedArgs) hdang
  have hne : (tokens expandedArgs).getLast? ≠ some "&".toList := by
    rw [hlast]
    cases b <;> decide
  have hdisp : dispatch env fuel sh expandedArgs
      = thenReap env fuel (foregroundProcess env sh expandedArgs) := by
    rw [dispatch_launch env fuel sh expandedArgs inputToken htok hcomment hexit hcd hstatus,
      launch_eq]
    cases hp : launchPath sh.foregroundOnly
        (if (tokens expandedArgs).getLast? = some "&".toList then 1 else 0) with
    | background =>
      exact absurd ((launchPath_background_iff sh.foregroundOnly expandedArgs).mp hp).2 hne
    | foreground => rfl
  refine ⟨hlast, hdisp, foregroundProcess_parent env sh expandedArgs, ?_, ?_, ?_, ?_⟩
  · intro h0
    rw [hdisp]
    exact foregroundProcess_child env fuel sh expandedArgs h0
  · intro openOk cwd foreground r h
    exact redirectIO_dangling openOk cwd expandedArgs foreground b r hdang h
  · intro h openOk cwd foreground
    exact redirectIO_only_dangling openOk cwd expandedArgs foreground b h
  · intro pre htoks hplain openOk cwd foreground
    refine redirectIO_only_dangling openOk cwd expandedArgs foreground b ?_
    rw [htoks]
    exact redirections_plain_append b pre hplain

/-- Witness for C8: on the line `wc <` the shell forks the child 1234, waits
for it and stores its wait status 139 in `lastStatus`, which was 0; in the
child `redirectIO` hands the NULL path token to `strcat`. -/
theorem dangling_redirect_forks_witness :
    (strtok_r "wc <".toList).1 = some "wc".toList ∧
    (redirections (tokens "wc <".toList)).getLast? = some (true, none) ∧
    (iteration (sampleEnv 139 ⟨0, 0⟩) 3 (initialShell 0) "wc <\n".toList).toOption.map
      (fun r => (r.1, r.2.lastStatus, r.2.out)) = some (Control.prompt, 139,
        [Event.stdout "smallsh\n".toList, Event.stdout ": ".toList, Event.fork 1234,
          Event.wait 1234]) ∧
    (initialShell 0).lastStatus = 0 ∧
    redirectIO (fun _ _ => true) "/tmp".toList "wc <".toList 1 = none ∧
    ((tokens "wc <".toList).getLast? = some (if true then "<".toList else ">".toList) ∧
    dispatch (sampleEnv 139 ⟨0, 0⟩) 3 (initialShell 0) "wc <".toList
      = thenReap (sampleEnv 139 ⟨0, 0⟩) 3
        (foregroundProcess (sampleEnv 139 ⟨0, 0⟩) (initialShell 0) "wc <".toList) ∧
    ((sampleEnv 139 ⟨0, 0⟩).forkResult ≠ -1 → (sampleEnv 139 ⟨0, 0⟩).forkResult ≠ 0 →
      foregroundProcess (sampleEnv 139 ⟨0, 0⟩) (initialShell 0) "wc <".toList
        = Except.ok (Control.prompt,
        { initialShell 0 with
            lastStatus := (sampleEnv 139 ⟨0, 0⟩).childStatus,
            out := (initialShell 0).out ++ [Event.fork (sampleEnv 139 ⟨0, 0⟩).forkResult]
              ++ [Event.wait (sampleEnv 139 ⟨0, 0⟩).forkResult] })) ∧
    ((sampleEnv 139 ⟨0, 0⟩).forkResult = 0 →
      dispatch (sampleEnv 139 ⟨0, 0⟩) 3 (initialShell 0) "wc <".toList
        = Except.ok (Control.child 1 "wc <".toList,
          (initialShell 0).emit [Event.fork (sampleEnv 139 ⟨0, 0⟩).forkResult])) ∧
    (∀ (openOk : CString → OpenMode → Bool) (cwd : CString) (foreground : Int) (r : Redirected),
      redirectIO openOk cwd "wc <".toList foreground = some r → r.result = -1) ∧
    (redirections (tokens "wc <".toList) = [(true, none)] →
      ∀ (openOk : CString → OpenMode → Bool) (cwd : CString) (foreground : Int),
        redirectIO openOk cwd "wc <".toList foreground = none) ∧
    (∀ pre : List CString,
      tokens "wc <".toList = pre ++ [if true then "<".toList else ">".toList] →
      (∀ t ∈ pre, t ≠ "<".toList ∧ t ≠ ">".toList) →
      ∀ (openOk : CString → OpenMode → Bool) (cwd : CString) (foreground : Int),
        redirectIO openOk cwd "wc <".toList foreground = none)) :=
  ⟨by decide, by decide, by decide, by decide, by decide,
    dangling_redirect_forks (sampleEnv 139 ⟨0, 0⟩) 3 (initialShell 0) "wc <".toList
      "wc".toList true (by decide) (by decide) (by decide) (by decide) (by decide)
      (by decide)⟩

end Smallsh
